/-
Verification of the planrun orchestrator core (Context, Node contract, Graph
levels, control nodes, Runner) against its natural-language specification.

The Python source is shallowly embedded: dicts become association lists
(preserving insertion order and first-key lookup), sets become duplicate-free
lists in insertion order, exceptions become `Except`, and `async` execution is
modelled by deterministic state threading plus an explicit event-interleaving
model for the concurrency claims.  Wall-clock measurements are abstracted as
rational parameters.
-/
import Mathlib

namespace Planrun

/-! ## Python value universe

Context values and node outputs.  The source is dynamically typed; the claims
only exercise scalar values, so the universe is the Python scalars.  `vNum`
stands in for Python floats, modelled exactly as rationals. -/

inductive Val where
  | vNone
  | vBool (b : Bool)
  | vInt (n : Int)
  | vNum (q : Rat)
  | vStr (s : String)
deriving DecidableEq, Repr

/-- Python truthiness (`bool(v)`) on the modelled scalar values. -/
def pyTruthy : Val → Bool
  | .vNone => false
  | .vBool b => b
  | .vInt n => n != 0
  | .vNum q => q != 0
  | .vStr s => s ≠ ""

/-- Python `str(v)` on the modelled scalar values. -/
def pyStr : Val → String
  | .vNone => "None"
  | .vBool b => if b then "True" else "False"
  | .vInt n => toString n
  | .vNum q => toString q
  | .vStr s => s

/-! ## Python dict as an association list

Insertion-ordered association list with dict semantics: lookup finds the first
(and, for lists built by `dictSet`, only) binding; assignment replaces in place
or appends. -/

def dictGet {α : Type} (d : List (String × α)) (k : String) : Option α :=
  match d with
  | [] => none
  | (k', v) :: rest => if k' = k then some v else dictGet rest k

def dictGetD {α : Type} (d : List (String × α)) (k : String) (dflt : α) : α :=
  (dictGet d k).getD dflt

/-- `d[k] = v`: replace the binding in place, or append a fresh one. -/
def dictSet {α : Type} (d : List (String × α)) (k : String) (v : α) : List (String × α) :=
  match d with
  | [] => [(k, v)]
  | (k', v') :: rest => if k' = k then (k', v) :: rest else (k', v') :: dictSet rest k v

/-- `d.setdefault(k, v)`: insert only when the key is absent. -/
def dictSetdefault {α : Type} (d : List (String × α)) (k : String) (v : α) :
    List (String × α) :=
  match dictGet d k with
  | some _ => d
  | none => d ++ [(k, v)]

def dictKeys {α : Type} (d : List (String × α)) : List String :=
  d.map Prod.fst

theorem dictGet_set_self {α : Type} (d : List (String × α)) (k : String) (v : α) :
    dictGet (dictSet d k v) k = some v := by
  induction d with
  | nil => simp [dictSet, dictGet]
  | cons p rest ih =>
    obtain ⟨k', v'⟩ := p
    by_cases h : k' = k <;> simp [dictSet, dictGet, h, ih]

theorem dictGet_set_ne {α : Type} (d : List (String × α)) (k k' : String) (v : α)
    (h : k ≠ k') : dictGet (dictSet d k v) k' = dictGet d k' := by
  induction d with
  | nil => simp [dictSet, dictGet, h]
  | cons p rest ih =>
    obtain ⟨k₀, v₀⟩ := p
    by_cases h₀ : k₀ = k
    · subst h₀; simp [dictSet, dictGet, h]
    · simp [dictSet, dictGet, h₀, ih]

theorem dictSet_set_self {α : Type} (d : List (String × α)) (k : String) (v w : α) :
    dictSet (dictSet d k v) k w = dictSet d k w := by
  induction d with
  | nil => simp [dictSet]
  | cons p rest ih =>
    obtain ⟨k₀, v₀⟩ := p
    by_cases h₀ : k₀ = k <;> simp [dictSet, h₀, ih]

theorem dictKeys_set_of_mem {α : Type} (d : List (String × α)) (k : String) (v : α)
    (h : k ∈ dictKeys d) : dictKeys (dictSet d k v) = dictKeys d := by
  induction d with
  | nil => simp [dictKeys] at h
  | cons p rest ih =>
    obtain ⟨k₀, v₀⟩ := p
    by_cases h₀ : k₀ = k
    · simp [dictSet, h₀, dictKeys]
    · have h' : k ∈ dictKeys rest := by
        simp only [dictKeys, List.map_cons, List.mem_cons] at h
        rcases h with h | h
        · exact absurd h.symm h₀
        · exact h
      have := ih h'
      simp only [dictSet, h₀, if_false, dictKeys, List.map_cons] at this ⊢
      rw [this]

theorem dictGet_isSome_iff_mem_keys {α : Type} (d : List (String × α)) (k : String) :
    (dictGet d k).isSome ↔ k ∈ dictKeys d := by
  induction d with
  | nil => simp [dictGet, dictKeys]
  | cons p rest ih =>
    obtain ⟨k₀, v₀⟩ := p
    by_cases h₀ : k₀ = k <;> simp [dictGet, dictKeys, h₀, ih]
    exact fun h => absurd h.symm h₀

theorem dictSetdefault_of_mem {α : Type} (d : List (String × α)) (k : String) (v : α)
    (h : k ∈ dictKeys d) : dictSetdefault d k v = d := by
  have := (dictGet_isSome_iff_mem_keys d k).2 h
  unfold dictSetdefault
  cases hget : dictGet d k with
  | none => rw [hget] at this; simp at this
  | some w => rfl

theorem dictSetdefault_of_not_mem {α : Type} (d : List (String × α)) (k : String) (v : α)
    (h : k ∉ dictKeys d) : dictSetdefault d k v = d ++ [(k, v)] := by
  unfold dictSetdefault
  cases hget : dictGet d k with
  | none => rfl
  | some w =>
    exfalso
    exact h ((dictGet_isSome_iff_mem_keys d k).1 (by rw [hget]; rfl))

/-! ## Context (src/orchestrator/core/context.py)

Flat key-value store; the runner merges node outputs under the
`{node_id}.{key}` namespace. -/

structure Context where
  data : List (String × Val) := []
deriving Repr

def Context.empty : Context := {}

/-- `Context.get(key, default=None)`. -/
def Context.get (c : Context) (key : String) (dflt : Val := .vNone) : Val :=
  dictGetD c.data key dflt

/-- `Context.set(key, value)`. -/
def Context.set (c : Context) (key : String) (v : Val) : Context :=
  { c with data := dictSet c.data key v }

/-- The namespaced key `f"{namespace}.{k}"` written by `Context.merge`. -/
def nsKey (ns k : String) : String :=
  ns ++ "." ++ k

/-- `Context.merge(namespace, outputs)`: write every pair under `namespace.`. -/
def Context.merge (c : Context) (ns : String) (outputs : List (String × Val)) : Context :=
  outputs.foldl (fun acc p => acc.set (nsKey ns p.1) p.2) c

/-- `Context.snapshot()`: a copy of the data (the model is immutable, so this
is the data itself). -/
def Context.snapshot (c : Context) : List (String × Val) :=
  c.data

/-- `key in context` (`__contains__`). -/
def Context.containsKey (c : Context) (key : String) : Bool :=
  (dictGet c.data key).isSome

/-! ### Namespaced-key string lemmas -/

theorem nsKey_data (ns k : String) : (nsKey ns k).data = ns.data ++ '.' :: k.data := by
  simp [nsKey, String.data_append]

theorem append_dot_inj {l₁ l₂ m₁ m₂ : List Char} (h₁ : '.' ∉ l₁) (h₂ : '.' ∉ l₂)
    (h : l₁ ++ '.' :: m₁ = l₂ ++ '.' :: m₂) : l₁ = l₂ ∧ m₁ = m₂ := by
  induction l₁ generalizing l₂ with
  | nil =>
    cases l₂ with
    | nil => simpa using h
    | cons c rest =>
      simp only [List.nil_append, List.cons_append, List.cons.injEq] at h
      exact absurd (h.1 ▸ List.mem_cons_self c rest) h₂
  | cons c rest ih =>
    cases l₂ with
    | nil =>
      simp only [List.nil_append, List.cons_append, List.cons.injEq] at h
      exact absurd (h.1.symm ▸ List.mem_cons_self c rest) h₁
    | cons c' rest' =>
      simp only [List.cons_append, List.cons.injEq] at h
      have h₁' : '.' ∉ rest := fun hm => h₁ (List.mem_cons_of_mem c hm)
      have h₂' : '.' ∉ rest' := fun hm => h₂ (List.mem_cons_of_mem c' hm)
      obtain ⟨he, hm⟩ := ih h₁' h₂' h.2
      exact ⟨by rw [h.1, he], hm⟩

/-- A string's character list determines it. -/
theorem string_eq_of_data_eq {s t : String} (h : s.data = t.data) : s = t := by
  cases s; cases t; simp at h; rw [h]

/-- Dot-free namespaces make namespaced keys collision-free across
namespaces: the namespace is recoverable as the segment before the first
dot. -/
theorem nsKey_inj_of_dotfree {ns₁ ns₂ k₁ k₂ : String}
    (h₁ : '.' ∉ ns₁.data) (h₂ : '.' ∉ ns₂.data)
    (h : nsKey ns₁ k₁ = nsKey ns₂ k₂) : ns₁ = ns₂ ∧ k₁ = k₂ := by
  have hd : ns₁.data ++ '.' :: k₁.data = ns₂.data ++ '.' :: k₂.data := by
    rw [← nsKey_data, ← nsKey_data, h]
  obtain ⟨ha, hb⟩ := append_dot_inj h₁ h₂ hd
  exact ⟨string_eq_of_data_eq ha, string_eq_of_data_eq hb⟩

/-- Within one namespace, distinct keys give distinct namespaced keys. -/
theorem nsKey_inj_right {ns k₁ k₂ : String} (h : nsKey ns k₁ = nsKey ns k₂) : k₁ = k₂ := by
  have hd : ns.data ++ '.' :: k₁.data = ns.data ++ '.' :: k₂.data := by
    rw [← nsKey_data, ← nsKey_data, h]
  have := List.append_cancel_left hd
  exact string_eq_of_data_eq (by injection this)

/-! ### Merge/get lemmas -/

theorem Context.get_set_self (c : Context) (k : String) (v : Val) (dflt : Val) :
    (c.set k v).get k dflt = v := by
  simp [Context.get, Context.set, dictGetD, dictGet_set_self]

theorem Context.get_set_ne (c : Context) (k k' : String) (v : Val) (dflt : Val)
    (h : k ≠ k') : (c.set k v).get k' dflt = c.get k' dflt := by
  simp [Context.get, Context.set, dictGetD, dictGet_set_ne _ _ _ _ h]

/-- A merge only touches keys of the form `ns.k` with `k` a key of the merged
map. -/
theorem Context.get_merge_ne (c : Context) (ns : String) (outputs : List (String × Val))
    (key : String) (dflt : Val) (h : ∀ p ∈ outputs, nsKey ns p.1 ≠ key) :
    (c.merge ns outputs).get key dflt = c.get key dflt := by
  induction outputs generalizing c with
  | nil => rfl
  | cons p rest ih =>
    have hp : nsKey ns p.1 ≠ key := h p (List.mem_cons_self p rest)
    have hrest : ∀ q ∈ rest, nsKey ns q.1 ≠ key := fun q hq => h q (List.mem_cons_of_mem p hq)
    show ((c.set (nsKey ns p.1) p.2).merge ns rest).get key dflt = c.get key dflt
    rw [ih _ hrest, Context.get_set_ne _ _ _ _ _ hp]

/-- After `merge ns outputs`, reading `ns.k` returns the value of the last
binding of `k` in the merged map. -/
theorem Context.get_merge_last (c : Context) (ns : String) (outputs : List (String × Val))
    (k : String) (v : Val) (dflt : Val)
    (hlast : ∃ pre post, outputs = pre ++ (k, v) :: post ∧ ∀ q ∈ post, q.1 ≠ k) :
    (c.merge ns outputs).get (nsKey ns k) dflt = v := by
  obtain ⟨pre, post, heq, hpost⟩ := hlast
  subst heq
  have hfold : Context.merge c ns (pre ++ (k, v) :: post)
      = Context.merge ((Context.merge c ns pre).set (nsKey ns k) v) ns post := by
    simp [Context.merge, List.foldl_append]
  rw [hfold, Context.get_merge_ne _ _ _ _ _
    (fun q hq hk => hpost q hq (nsKey_inj_right hk)), Context.get_set_self]

/-! ### Template substitution (`Context.format_template`)

The source substitutes with `re.sub` on the pattern `\{([^{}]+)\}`: a single
left-to-right pass; at each position the earliest match is an opening brace
followed by one or more non-brace characters and a closing brace; the inner
text is the key; present keys are replaced by `str(value)` and the replacement
is never rescanned; absent keys leave the matched text unchanged. -/

def notBrace (c : Char) : Bool :=
  c ≠ '{' && c ≠ '}'

/-- Match `([^{}]+)\}` at the head of `rest` (the opening brace has already
been consumed): on success return the key text and the remainder after the
closing brace. -/
def takeKey (rest : List Char) : Option (List Char × List Char) :=
  match rest.dropWhile notBrace with
  | '}' :: tail =>
    if rest.takeWhile notBrace = [] then none else some (rest.takeWhile notBrace, tail)
  | _ => none

/-- Replacement text for one matched `{key}`: `str(value)` when the key is
present, the original matched text when absent. -/
def renderKey (d : List (String × Val)) (key : List Char) : List Char :=
  match dictGet d (String.mk key) with
  | some v => (pyStr v).data
  | none => '{' :: (key ++ ['}'])

theorem takeKey_some_len {rest key rest' : List Char} (h : takeKey rest = some (key, rest')) :
    rest'.length < rest.length := by
  unfold takeKey at h
  split at h
  next tail heq =>
    split at h
    next => exact Option.noConfusion h
    next =>
      have hsub : List.Sublist (rest.dropWhile notBrace) rest := List.dropWhile_sublist _
      have hlen := hsub.length_le
      rw [heq] at hlen
      simp only [Option.some.injEq, Prod.mk.injEq] at h
      rw [← h.2]
      simp only [List.length_cons] at hlen
      omega
  next => exact Option.noConfusion h

def scanTemplate (d : List (String × Val)) : List Char → List Char
  | [] => []
  | c :: rest =>
    if c = '{' then
      match htk : takeKey rest with
      | some (key, rest') => renderKey d key ++ scanTemplate d rest'
      | none => c :: scanTemplate d rest
    else c :: scanTemplate d rest
termination_by l => l.length
decreasing_by
  · exact Nat.lt_succ_of_lt (takeKey_some_len htk)
  · exact Nat.lt_succ_self _
  · exact Nat.lt_succ_self _

/-- `Context.format_template(template)`. -/
def Context.format_template (c : Context) (template : String) : String :=
  String.mk (scanTemplate c.data template.data)

theorem scanTemplate_nil (d : List (String × Val)) : scanTemplate d [] = [] := by
  rw [scanTemplate]

theorem scanTemplate_cons_ne (d : List (String × Val)) (c : Char) (l : List Char)
    (h : ¬c = '{') : scanTemplate d (c :: l) = c :: scanTemplate d l := by
  rw [scanTemplate]
  simp [h]

theorem takeWhile_append_stop {key suf : List Char} {x : Char}
    (hkey : ∀ c ∈ key, notBrace c) (hx : notBrace x = false) :
    (key ++ x :: suf).takeWhile notBrace = key
      ∧ (key ++ x :: suf).dropWhile notBrace = x :: suf := by
  induction key with
  | nil => simp [List.takeWhile, List.dropWhile, hx]
  | cons c rest ih =>
    have hc : notBrace c := hkey c (List.mem_cons_self c rest)
    have hrest : ∀ c' ∈ rest, notBrace c' := fun c' hc' => hkey c' (List.mem_cons_of_mem c hc')
    obtain ⟨h₁, h₂⟩ := ih hrest
    constructor
    · simp [List.takeWhile, hc, h₁]
    · simp [List.dropWhile, hc, h₂]

theorem takeKey_of_shape {key suf : List Char} (hne : key ≠ [])
    (hkey : ∀ c ∈ key, notBrace c) :
    takeKey (key ++ '}' :: suf) = some (key, suf) := by
  obtain ⟨h₁, h₂⟩ := @takeWhile_append_stop key suf '}' hkey (by decide)
  unfold takeKey
  rw [h₂, h₁]
  simp [hne]

/-- A brace-free region is passed through unchanged and the scan continues
after it. -/
theorem scanTemplate_append_pass (d : List (String × Val)) (pre l : List Char)
    (hpre : ∀ c ∈ pre, notBrace c) :
    scanTemplate d (pre ++ l) = pre ++ scanTemplate d l := by
  induction pre with
  | nil => rfl
  | cons c rest ih =>
    have hc : notBrace c := hpre c (List.mem_cons_self c rest)
    have hrest : ∀ c' ∈ rest, notBrace c' := fun c' hc' => hpre c' (List.mem_cons_of_mem c hc')
    have hcne : ¬c = '{' := by
      intro heq
      rw [heq] at hc
      simp [notBrace] at hc
    rw [List.cons_append, scanTemplate_cons_ne d c _ hcne, ih hrest]
    rfl

/-- One `{key}` match is replaced by its rendering and the scan resumes right
after the closing brace (the rendering itself is never rescanned). -/
theorem scanTemplate_hole (d : List (String × Val)) (key suf : List Char)
    (hne : key ≠ []) (hkey : ∀ c ∈ key, notBrace c) :
    scanTemplate d ('{' :: (key ++ '}' :: suf)) = renderKey d key ++ scanTemplate d suf := by
  rw [scanTemplate]
  rw [if_pos rfl]
  split
  next key' rest' heq =>
    rw [takeKey_of_shape hne hkey] at heq
    simp only [Option.some.injEq, Prod.mk.injEq] at heq
    rw [heq.1, heq.2]
  next heq =>
    rw [takeKey_of_shape hne hkey] at heq
    exact Option.noConfusion heq

/-! ## Node contract (src/orchestrator/core/node.py) -/

inductive NodeStatus where
  | success
  | failure
  | skipped
deriving DecidableEq, Repr

/-- One entry of a `RetryNode` attempts log: `{"attempt": .., "passed": ..,
"error": ..}`. -/
structure AttemptEntry where
  attempt : Nat
  passed : Val
  error : Option String
deriving DecidableEq, Repr

/-- Metadata values (`NodeResult.metadata` is `dict[str, Any]`; the claims
exercise level indices, the dry-run flag, durations and retry attempt logs). -/
inductive MVal where
  | mBool (b : Bool)
  | mInt (n : Int)
  | mNum (q : Rat)
  | mAttempts (log : List AttemptEntry)
deriving DecidableEq, Repr

structure NodeResult where
  status : NodeStatus
  outputs : List (String × Val) := []
  error : Option String := none
  metadata : List (String × MVal) := []
deriving DecidableEq, Repr

/-- Python `round(x)` (banker's rounding: ties go to the even integer). -/
def pyRound (x : Rat) : Int :=
  let f := ⌊x⌋
  if x - f < 1/2 then f
  else if x - f > 1/2 then f + 1
  else if Even f then f else f + 1

/-- Python `round(x, 1)`. -/
def round1 (x : Rat) : Rat :=
  (pyRound (10 * x) : Rat) / 10

/-- `Node.execute(ctx)` (node.py lines 35-44).  The body of `run` is
abstracted as its outcome: a `NodeResult`, or a raised fault carrying the
message `str(e)`.  The wall-clock elapsed time is a parameter (a runtime
measurement outside the model).  Any fault is converted to a FAILURE result;
`metadata["duration_ms"]` is stamped via `setdefault`. -/
def Node.execute (runOutcome : Except String NodeResult) (elapsed_ms : Rat) : NodeResult :=
  let result : NodeResult :=
    match runOutcome with
    | .ok r => r
    | .error e => { status := .failure, error := some e }
  { result with
    metadata := dictSetdefault result.metadata "duration_ms" (.mNum (round1 elapsed_ms)) }

/-! ## Graph (src/orchestrator/core/graph.py)

`_nodes` maps ids to node objects, `_edges` to successor sets, `_reverse` to
predecessor sets.  Python sets are modelled as duplicate-free lists in
insertion order (Python's set iteration order is unspecified; every proved
property is independent of within-set order). -/

/-- The behaviour of a node, i.e. the result of `await node.execute(ctx)`.
By the `execute` contract this is a total function into `NodeResult`. -/
def NodeBeh : Type := Context → NodeResult

/-- A node object as the graph sees it: its id plus its behaviour. -/
structure PNode where
  node_id : String
  behavior : NodeBeh

structure Graph where
  nodes : List (String × PNode) := []
  edges : List (String × List String) := []
  reverse : List (String × List String) := []

def Graph.empty : Graph := {}

/-- Python `set.add`: insert if absent (insertion-order model). -/
def setAdd (l : List String) (x : String) : List String :=
  if x ∈ l then l else l ++ [x]

/-- `Graph.add_node(node)` (graph.py lines 29-33): store the node under its
id, and `setdefault` its two adjacency entries to the empty set. -/
def Graph.add_node (g : Graph) (n : PNode) : Graph :=
  { nodes := dictSet g.nodes n.node_id n
    edges := dictSetdefault g.edges n.node_id []
    reverse := dictSetdefault g.reverse n.node_id [] }

/-- `Graph.add_edge(source, target)` (graph.py lines 35-43): `ValueError` on
an unregistered endpoint, otherwise record the edge in both adjacency
directions.  (Under registration both adjacency keys are present; on a
missing key Python would raise `KeyError`, which is unreachable and modelled
as a no-op by `adjInsert`.) -/
def adjInsert (adj : List (String × List String)) (k : String) (x : String) :
    List (String × List String) :=
  match adj with
  | [] => []
  | (k', s) :: rest => if k' = k then (k', setAdd s x) :: rest else (k', s) :: adjInsert rest k x

def Graph.add_edge (g : Graph) (source target : String) : Except String Graph :=
  -- the source formats the id with repr (f"... {source!r}"); the quoting is
  -- elided here, no property depends on the message text
  if source ∉ dictKeys g.nodes then
    .error ("Unknown source node: " ++ source)
  else if target ∉ dictKeys g.nodes then
    .error ("Unknown target node: " ++ target)
  else
    .ok { g with
            edges := adjInsert g.edges source target
            reverse := adjInsert g.reverse target source }

/-- `Graph.get_node(node_id)` (total model; `KeyError` is unreachable where
the runner calls it). -/
def Graph.get_node (g : Graph) (node_id : String) : NodeBeh :=
  match dictGet g.nodes node_id with
  | some n => n.behavior
  | none => fun _ => { status := .failure, error := some "KeyError" }

def Graph.node_ids (g : Graph) : List String :=
  dictKeys g.nodes

/-- Successor set of a node (`self._edges.get(nid, set())`). -/
def Graph.succs (g : Graph) (nid : String) : List String :=
  dictGetD g.edges nid []

/-- `Graph.predecessors(node_id)` (`self._reverse.get(node_id, set())`). -/
def Graph.predecessors (g : Graph) (nid : String) : List String :=
  dictGetD g.reverse nid []

/-! ### Topological levels (`Graph.levels`, graph.py lines 55-82)

Kahn's algorithm: in-degrees from the reverse map, a queue seeded with the
zero-in-degree nodes, and a while-loop draining the current queue as one
level; successors whose in-degree reaches zero join the next queue.  The
while-loop is embedded with fuel `len(nodes)`; the invariant proofs show the
queue empties before the fuel does, so the fuel case is unreachable. -/

def ival (indeg : List (String × Int)) (k : String) : Int :=
  dictGetD indeg k 0

/-- `in_degree[succ] -= 1` (first-binding update, like the dict). -/
def decrKey : List (String × Int) → String → List (String × Int)
  | [], _ => []
  | (k', v) :: rest, k => if k' = k then (k', v - 1) :: rest else (k', v) :: decrKey rest k

/-- Body of `for succ in self._edges.get(nid, set())`: decrement, and enqueue
on reaching zero. -/
def stepSucc (st : List (String × Int) × List String) (succ : String) :
    List (String × Int) × List String :=
  let indeg := decrKey st.1 succ
  if ival indeg succ = 0 then (indeg, st.2 ++ [succ]) else (indeg, st.2)

/-- Drain one level (`for _ in range(len(queue))`): pop every queued node,
processing its successors; the newly enqueued nodes form the next queue. -/
def processLevel (succs : String → List String) (level : List String)
    (indeg : List (String × Int)) : List (String × Int) × List String :=
  level.foldl (fun st nid => (succs nid).foldl stepSucc st) (indeg, [])

def kahnLoop (succs : String → List String) :
    Nat → List (String × Int) → List String → List (List String) → Nat →
    List (List String) × Nat
  | 0, _, _, acc, visited => (acc.reverse, visited)
  | fuel + 1, indeg, queue, acc, visited =>
    if queue = [] then (acc.reverse, visited)
    else
      let st := processLevel succs queue indeg
      kahnLoop succs fuel st.1 st.2 (queue :: acc) (visited + queue.length)

/-- `Graph.levels`: topological levels, or `CycleError` when the number of
visited nodes falls short of the registered count. -/
def Graph.levels (g : Graph) : Except String (List (List String)) :=
  let ids := g.node_ids
  let indeg : List (String × Int) := ids.map fun nid => (nid, ((g.predecessors nid).length : Int))
  let queue := (indeg.filter fun p => p.2 = 0).map Prod.fst
  let r := kahnLoop g.succs ids.length indeg queue [] 0
  if r.2 ≠ ids.length then
    .error ("Graph contains a cycle (visited " ++ toString r.2 ++ "/"
      ++ toString ids.length ++ " nodes)")
  else
    .ok r.1

/-! ### Graph well-formedness

Invariants holding for every graph built through `add_node`/`add_edge`
(spec section 3): unique registration, adjacency keys tracking the node set,
set-valued adjacency entries over registered ids, and forward/reverse
consistency. -/

def Graph.WF (g : Graph) : Prop :=
  (dictKeys g.nodes).Nodup
  ∧ dictKeys g.edges = dictKeys g.nodes
  ∧ dictKeys g.reverse = dictKeys g.nodes
  ∧ (∀ p ∈ g.edges, p.2.Nodup ∧ ∀ t ∈ p.2, t ∈ dictKeys g.nodes)
  ∧ (∀ p ∈ g.reverse, p.2.Nodup ∧ ∀ s ∈ p.2, s ∈ dictKeys g.nodes)
  ∧ (∀ u ∈ dictKeys g.nodes, ∀ v ∈ dictKeys g.nodes, (v ∈ g.succs u ↔ u ∈ g.predecessors v))

instance (g : Graph) : Decidable g.WF := by
  unfold Graph.WF
  infer_instance

/-- The dependency relation: an edge `u → v` recorded in the forward map. -/
def Graph.hasEdge (g : Graph) (u v : String) : Prop :=
  v ∈ g.succs u

/-- A directed cycle among registered nodes: a nonempty edge path from some
node back to itself. -/
def Graph.HasCycle (g : Graph) : Prop :=
  ∃ u, Relation.TransGen g.hasEdge u u

def Graph.Acyclic (g : Graph) : Prop :=
  ¬g.HasCycle

theorem dictGet_mem {α : Type} {d : List (String × α)} {k : String} {v : α}
    (h : dictGet d k = some v) : (k, v) ∈ d := by
  induction d with
  | nil => exact Option.noConfusion h
  | cons p rest ih =>
    obtain ⟨k₀, v₀⟩ := p
    by_cases h₀ : k₀ = k
    · subst h₀
      simp [dictGet] at h
      rw [h]
      exact List.mem_cons_self _ _
    · simp [dictGet, h₀] at h
      exact List.mem_cons_of_mem _ (ih h)

theorem dictGet_eq_none_of_not_mem {α : Type} {d : List (String × α)} {k : String}
    (h : k ∉ dictKeys d) : dictGet d k = none := by
  cases hget : dictGet d k with
  | none => rfl
  | some v => exact absurd ((dictGet_isSome_iff_mem_keys d k).1 (by rw [hget]; rfl)) h

theorem Graph.succs_eq_nil_of_not_mem {g : Graph} (hwf : g.WF) {u : String}
    (h : u ∉ g.node_ids) : g.succs u = [] := by
  have : u ∉ dictKeys g.edges := by rw [hwf.2.1]; exact h
  simp [Graph.succs, dictGetD, dictGet_eq_none_of_not_mem this]

theorem Graph.preds_eq_nil_of_not_mem {g : Graph} (hwf : g.WF) {v : String}
    (h : v ∉ g.node_ids) : g.predecessors v = [] := by
  have : v ∉ dictKeys g.reverse := by rw [hwf.2.2.1]; exact h
  simp [Graph.predecessors, dictGetD, dictGet_eq_none_of_not_mem this]

theorem Graph.succs_mem_ids {g : Graph} (hwf : g.WF) {u t : String}
    (h : t ∈ g.succs u) : t ∈ g.node_ids := by
  unfold Graph.succs dictGetD at h
  cases hget : dictGet g.edges u with
  | none => rw [hget] at h; simp at h
  | some s =>
    rw [hget] at h
    exact (hwf.2.2.2.1 (u, s) (dictGet_mem hget)).2 t h

theorem Graph.preds_mem_ids {g : Graph} (hwf : g.WF) {v s : String}
    (h : s ∈ g.predecessors v) : s ∈ g.node_ids := by
  unfold Graph.predecessors dictGetD at h
  cases hget : dictGet g.reverse v with
  | none => rw [hget] at h; simp at h
  | some l =>
    rw [hget] at h
    exact (hwf.2.2.2.2.1 (v, l) (dictGet_mem hget)).2 s h

theorem Graph.succs_nodup {g : Graph} (hwf : g.WF) (u : String) : (g.succs u).Nodup := by
  unfold Graph.succs dictGetD
  cases hget : dictGet g.edges u with
  | none => simp
  | some s =>
    simpa using (hwf.2.2.2.1 (u, s) (dictGet_mem hget)).1

theorem Graph.preds_nodup {g : Graph} (hwf : g.WF) (v : String) :
    (g.predecessors v).Nodup := by
  unfold Graph.predecessors dictGetD
  cases hget : dictGet g.reverse v with
  | none => simp
  | some s =>
    simpa using (hwf.2.2.2.2.1 (v, s) (dictGet_mem hget)).1

/-- Forward/reverse consistency for all pairs: outside the registered ids
both sides are empty. -/
theorem Graph.consistent {g : Graph} (hwf : g.WF) (u v : String) :
    v ∈ g.succs u ↔ u ∈ g.predecessors v := by
  by_cases hu : u ∈ g.node_ids
  · by_cases hv : v ∈ g.node_ids
    · exact hwf.2.2.2.2.2 u hu v hv
    · constructor
      · intro h; exact absurd (g.succs_mem_ids hwf h) hv
      · intro h; rw [g.preds_eq_nil_of_not_mem hwf hv] at h; exact absurd h (by simp)
  · constructor
    · intro h; rw [g.succs_eq_nil_of_not_mem hwf hu] at h; exact absurd h (by simp)
    · intro h; exact absurd (g.preds_mem_ids hwf h) hu

theorem Graph.hasEdge_mem_left {g : Graph} (hwf : g.WF) {u v : String}
    (h : g.hasEdge u v) : u ∈ g.node_ids := by
  by_contra hu
  rw [Graph.hasEdge, g.succs_eq_nil_of_not_mem hwf hu] at h
  exact absurd h (by simp)

/-! ### In-degree bookkeeping lemmas -/

theorem dictKeys_decrKey (indeg : List (String × Int)) (k : String) :
    dictKeys (decrKey indeg k) = dictKeys indeg := by
  induction indeg with
  | nil => rfl
  | cons p rest ih =>
    obtain ⟨k₀, v₀⟩ := p
    by_cases h₀ : k₀ = k <;> simp [decrKey, h₀, dictKeys] at ih ⊢ <;> exact ih

theorem ival_decrKey_self {indeg : List (String × Int)} {k : String}
    (h : k ∈ dictKeys indeg) : ival (decrKey indeg k) k = ival indeg k - 1 := by
  induction indeg with
  | nil => simp [dictKeys] at h
  | cons p rest ih =>
    obtain ⟨k₀, v₀⟩ := p
    by_cases h₀ : k₀ = k
    · subst h₀
      simp [decrKey, ival, dictGetD, dictGet]
    · have h' : k ∈ dictKeys rest := by
        simp only [dictKeys, List.map_cons, List.mem_cons] at h
        rcases h with h | h
        · exact absurd h.symm h₀
        · exact h
      simp only [decrKey, h₀, if_false, ival, dictGetD, dictGet] at ih ⊢
      exact ih h'

theorem ival_decrKey_ne (indeg : List (String × Int)) {k y : String} (h : y ≠ k) :
    ival (decrKey indeg k) y = ival indeg y := by
  induction indeg with
  | nil => rfl
  | cons p rest ih =>
    obtain ⟨k₀, v₀⟩ := p
    by_cases h₀ : k₀ = k
    · subst h₀
      have : ¬k₀ = y := fun he => h (he.symm)
      simp [decrKey, ival, dictGetD, dictGet, this]
    · simp only [decrKey, h₀, if_false, ival, dictGetD, dictGet] at ih ⊢
      by_cases h₁ : k₀ = y
      · simp [h₁]
      · simp only [h₁, if_false]
        exact ih

/-- Effect of folding `stepSucc` over an arbitrary decrement sequence `ds`
(the concatenated successor lists of one level), starting from queue `q`:
keys are preserved, every in-degree drops by its multiplicity in `ds`, and a
node is enqueued exactly when its decrements consume its whole in-degree. -/
theorem foldSucc_spec (ds : List String) :
    ∀ (indeg : List (String × Int)) (q : List String),
    (∀ d ∈ ds, d ∈ dictKeys indeg) →
    (∀ n ∈ ds, (ds.count n : Int) ≤ ival indeg n) →
    dictKeys (ds.foldl stepSucc (indeg, q)).1 = dictKeys indeg
    ∧ (∀ n, ival (ds.foldl stepSucc (indeg, q)).1 n = ival indeg n - ds.count n)
    ∧ (∀ n, n ∈ (ds.foldl stepSucc (indeg, q)).2
        ↔ n ∈ q ∨ (n ∈ ds ∧ (ds.count n : Int) = ival indeg n))
    ∧ ((∀ m ∈ q, ds.count m = 0) → q.Nodup → (ds.foldl stepSucc (indeg, q)).2.Nodup) := by
  induction ds with
  | nil =>
    intro indeg q _ _
    exact ⟨rfl, fun n => by simp, fun n => by simp, fun _ hq => hq⟩
  | cons d rest ih =>
    intro indeg q hkeys hcnt
    have hd : d ∈ dictKeys indeg := hkeys d (List.mem_cons_self d rest)
    set indeg1 := decrKey indeg d with hindeg1
    have hkeys1 : dictKeys indeg1 = dictKeys indeg := dictKeys_decrKey indeg d
    have hvald : ival indeg1 d = ival indeg d - 1 := ival_decrKey_self hd
    have hvne : ∀ n, n ≠ d → ival indeg1 n = ival indeg n := fun n hn => ival_decrKey_ne indeg hn
    have hcntd : (rest.count d : Int) + 1 ≤ ival indeg d := by
      have := hcnt d (List.mem_cons_self d rest)
      rw [List.count_cons_self] at this
      push_cast at this
      omega
    set q1 := if ival indeg1 d = 0 then q ++ [d] else q with hq1
    have hstep : stepSucc (indeg, q) d = (indeg1, q1) := by
      unfold stepSucc
      by_cases hc : ival (decrKey indeg d) d = 0 <;>
        simp [← hindeg1, hq1, hc]
    have hfold : (d :: rest).foldl stepSucc (indeg, q) = rest.foldl stepSucc (indeg1, q1) := by
      rw [List.foldl_cons, hstep]
    have hq1mem : ∀ n, n ∈ q1 ↔ n ∈ q ∨ (n = d ∧ ival indeg1 d = 0) := by
      intro n
      rw [hq1]
      by_cases hc : ival indeg1 d = 0 <;> simp [hc]
    have hkeysrest : ∀ x ∈ rest, x ∈ dictKeys indeg1 := by
      intro x hx
      rw [hkeys1]
      exact hkeys x (List.mem_cons_of_mem d hx)
    have hcntrest : ∀ n ∈ rest, (rest.count n : Int) ≤ ival indeg1 n := by
      intro n hn
      by_cases hnd : n = d
      · subst hnd
        rw [hvald]
        omega
      · rw [hvne n hnd]
        have := hcnt n (List.mem_cons_of_mem d hn)
        rw [List.count_cons_of_ne hnd] at this
        exact this
    obtain ⟨K, V, M, N⟩ := ih indeg1 q1 hkeysrest hcntrest
    rw [hfold]
    refine ⟨K.trans hkeys1, ?_, ?_, ?_⟩
    · intro n
      rw [V n]
      by_cases hnd : n = d
      · subst hnd
        rw [hvald, List.count_cons_self]
        push_cast
        omega
      · rw [hvne n hnd, List.count_cons_of_ne hnd]
    · intro n
      rw [M n, hq1mem n]
      by_cases hnd : n = d
      · subst hnd
        rw [List.count_cons_self]
        constructor
        · rintro ((h | ⟨-, h0⟩) | ⟨hmem, hcq⟩)
          · exact Or.inl h
          · refine Or.inr ⟨List.mem_cons_self n rest, ?_⟩
            rw [hvald] at h0
            have : rest.count n = 0 := by omega
            rw [this]
            push_cast
            omega
          · refine Or.inr ⟨List.mem_cons_self n rest, ?_⟩
            rw [hvald] at hcq
            push_cast
            omega
        · rintro (h | ⟨-, hcq⟩)
          · exact Or.inl (Or.inl h)
          · push_cast at hcq
            by_cases hz : rest.count n = 0
            · refine Or.inl (Or.inr ⟨rfl, ?_⟩)
              rw [hvald]
              rw [hz] at hcq
              push_cast at hcq
              omega
            · refine Or.inr ⟨List.count_pos_iff.1 (Nat.pos_of_ne_zero hz), ?_⟩
              rw [hvald]
              omega
      · rw [hvne n hnd, List.count_cons_of_ne hnd]
        constructor
        · rintro ((h | ⟨he, -⟩) | ⟨hmem, hcq⟩)
          · exact Or.inl h
          · exact absurd he hnd
          · exact Or.inr ⟨List.mem_cons_of_mem d hmem, hcq⟩
        · rintro (h | ⟨hmem, hcq⟩)
          · exact Or.inl (Or.inl h)
          · rcases List.mem_cons.1 hmem with he | hmem'
            · exact absurd he hnd
            · exact Or.inr ⟨hmem', hcq⟩
    · intro hq0 hqnd
      have hq1cnt : ∀ m ∈ q1, rest.count m = 0 := by
        intro m hm
        rcases (hq1mem m).1 hm with hmq | ⟨hmd, h0⟩
        · have := hq0 m hmq
          by_cases hmd : m = d
          · subst hmd
            rw [List.count_cons_self] at this
            omega
          · rw [List.count_cons_of_ne hmd] at this
            exact this
        · subst hmd
          rw [hvald] at h0
          omega
      have hq1nd : q1.Nodup := by
        rw [hq1]
        by_cases hc : ival indeg1 d = 0
        · rw [if_pos hc]
          have hdnq : d ∉ q := by
            intro hdq
            have := hq0 d hdq
            rw [List.count_cons_self] at this
            omega
          simp [List.nodup_append, hqnd, hdnq]
        · rw [if_neg hc]
          exact hqnd
      exact N hq1cnt hq1nd

theorem processLevel_eq_foldl (succs : String → List String) (level : List String)
    (indeg : List (String × Int)) :
    processLevel succs level indeg = ((level.map succs).flatten).foldl stepSucc (indeg, []) := by
  unfold processLevel
  rw [List.foldl_flatten, List.foldl_map]

theorem count_join_nodup (succs : String → List String) (level : List String) (n : String)
    (hnd : ∀ u ∈ level, (succs u).Nodup) :
    ((level.map succs).flatten).count n = level.countP (fun u => decide (n ∈ succs u)) := by
  induction level with
  | nil => simp
  | cons u rest ih =>
    have hu : (succs u).Nodup := hnd u (List.mem_cons_self u rest)
    have hrest : ∀ v ∈ rest, (succs v).Nodup := fun v hv => hnd v (List.mem_cons_of_mem u hv)
    simp only [List.map_cons, List.flatten_cons, List.count_append, List.countP_cons]
    rw [ih hrest]
    have h1 : (succs u).count n = if n ∈ succs u then 1 else 0 := by
      by_cases hm : n ∈ succs u
      · rw [if_pos hm]
        exact List.count_eq_one_of_mem hu hm
      · rw [if_neg hm]
        exact List.count_eq_zero_of_not_mem hm
    rw [h1]
    by_cases hm : n ∈ succs u <;> simp [hm] <;> omega

theorem countP_mem_eq_card_inter (level target : List String) (hlv : level.Nodup) :
    level.countP (fun u => decide (u ∈ target))
      = (level.toFinset ∩ target.toFinset).card := by
  rw [List.countP_eq_length_filter]
  have hnd : (level.filter (fun u => decide (u ∈ target))).Nodup := hlv.filter _
  rw [← List.toFinset_card_of_nodup hnd]
  congr 1
  ext x
  simp [List.mem_filter]

/-- Loop invariant of Kahn's algorithm at a level boundary: `popped` is the
set of already-emitted nodes, every in-degree counts the unpopped
predecessors, and the queue is exactly the unpopped nodes whose predecessors
are all popped. -/
structure KahnInv (g : Graph) (popped : List String) (indeg : List (String × Int))
    (queue : List String) : Prop where
  keys : dictKeys indeg = g.node_ids
  popped_sub : ∀ n ∈ popped, n ∈ g.node_ids
  queue_sub : ∀ n ∈ queue, n ∈ g.node_ids
  popped_nodup : popped.Nodup
  queue_nodup : queue.Nodup
  disj : ∀ n ∈ queue, n ∉ popped
  val_eq : ∀ n ∈ g.node_ids,
    ival indeg n = (((g.predecessors n).toFinset) \ popped.toFinset).card
  popped_closed : ∀ n ∈ popped, ∀ p ∈ g.predecessors n, p ∈ popped
  queue_iff : ∀ n ∈ g.node_ids,
    (n ∈ queue ↔ n ∉ popped ∧ ∀ p ∈ g.predecessors n, p ∈ popped)

theorem KahnInv.step {g : Graph} (hwf : g.WF) {popped queue : List String}
    {indeg : List (String × Int)} (inv : KahnInv g popped indeg queue) :
    KahnInv g (popped ++ queue) (processLevel g.succs queue indeg).1
      (processLevel g.succs queue indeg).2 := by
  have hds : processLevel g.succs queue indeg
      = ((queue.map g.succs).flatten).foldl stepSucc (indeg, []) :=
    processLevel_eq_foldl g.succs queue indeg
  set ds := (queue.map g.succs).flatten with hdsdef
  have hds_ids : ∀ d ∈ ds, d ∈ g.node_ids := by
    intro d hd
    rw [hdsdef, List.mem_flatten] at hd
    obtain ⟨l, hl, hdl⟩ := hd
    rw [List.mem_map] at hl
    obtain ⟨u, _, hu⟩ := hl
    exact g.succs_mem_ids hwf (hu ▸ hdl)
  have hcount : ∀ n, ds.count n = (queue.toFinset ∩ (g.predecessors n).toFinset).card := by
    intro n
    rw [hdsdef, count_join_nodup g.succs queue n (fun u _ => g.succs_nodup hwf u)]
    have hpc : List.countP (fun u => decide (n ∈ g.succs u)) queue
        = List.countP (fun u => decide (u ∈ g.predecessors n)) queue := by
      apply List.countP_congr
      intro u _
      simp only [decide_eq_true_eq]
      exact g.consistent hwf u n
    rw [hpc, countP_mem_eq_card_inter queue (g.predecessors n) inv.queue_nodup]
  have hsubQA : ∀ n, queue.toFinset ∩ (g.predecessors n).toFinset
      ⊆ (g.predecessors n).toFinset \ popped.toFinset := by
    intro n x hx
    rw [Finset.mem_inter] at hx
    rw [Finset.mem_sdiff]
    refine ⟨hx.2, fun hxp => ?_⟩
    exact inv.disj x (List.mem_toFinset.1 hx.1) (List.mem_toFinset.1 hxp)
  have hkeysds : ∀ d ∈ ds, d ∈ dictKeys indeg := by
    intro d hd
    rw [inv.keys]
    exact hds_ids d hd
  have hcnt : ∀ n ∈ ds, (ds.count n : Int) ≤ ival indeg n := by
    intro n hn
    rw [inv.val_eq n (hds_ids n hn), hcount n]
    exact_mod_cast Finset.card_le_card (hsubQA n)
  obtain ⟨K, V, M, N⟩ := foldSucc_spec ds indeg [] hkeysds hcnt
  rw [hds]
  have hr2 : ∀ n, n ∈ (ds.foldl stepSucc (indeg, [])).2
      ↔ n ∈ ds ∧ (ds.count n : Int) = ival indeg n := by
    intro n
    rw [M n]
    simp
  -- facts about any enqueued node
  have hnotP : ∀ n, n ∈ g.node_ids → (ds.count n : Int) = ival indeg n → 1 ≤ ds.count n →
      n ∉ popped ∧ n ∉ queue := by
    intro n hnids hcq hpos
    have hivpos : (1 : Int) ≤ ival indeg n := by omega
    constructor
    · intro hnp
      have hclosed := inv.popped_closed n hnp
      have hempty : (g.predecessors n).toFinset \ popped.toFinset = ∅ := by
        rw [Finset.sdiff_eq_empty_iff_subset]
        intro x hx
        exact List.mem_toFinset.2 (hclosed x (List.mem_toFinset.1 hx))
      rw [inv.val_eq n hnids, hempty] at hivpos
      simp at hivpos
    · intro hnq
      have hclosed := ((inv.queue_iff n hnids).1 hnq).2
      have hempty : (g.predecessors n).toFinset \ popped.toFinset = ∅ := by
        rw [Finset.sdiff_eq_empty_iff_subset]
        intro x hx
        exact List.mem_toFinset.2 (hclosed x (List.mem_toFinset.1 hx))
      rw [inv.val_eq n hnids, hempty] at hivpos
      simp at hivpos
  refine ⟨K.trans inv.keys, ?_, ?_, ?_, N (by simp) (by simp), ?_, ?_, ?_, ?_⟩
  · intro n hn
    rcases List.mem_append.1 hn with h | h
    · exact inv.popped_sub n h
    · exact inv.queue_sub n h
  · intro n hn
    exact hds_ids n ((hr2 n).1 hn).1
  · refine inv.popped_nodup.append inv.queue_nodup ?_
    intro a ha hb
    exact inv.disj a hb ha
  · intro n hn
    obtain ⟨hmem, hcq⟩ := (hr2 n).1 hn
    have hpos : 1 ≤ ds.count n := List.count_pos_iff.2 hmem
    obtain ⟨h1, h2⟩ := hnotP n (hds_ids n hmem) hcq hpos
    intro hcontra
    rcases List.mem_append.1 hcontra with h | h
    · exact h1 h
    · exact h2 h
  · -- val_eq for the new popped set
    intro n hnids
    rw [V n, inv.val_eq n hnids, hcount n, List.toFinset_append]
    have e1 : ((g.predecessors n).toFinset \ popped.toFinset) \ queue.toFinset
        = (g.predecessors n).toFinset \ (popped.toFinset ∪ queue.toFinset) := by
      ext x
      simp only [Finset.mem_sdiff, Finset.mem_union]
      tauto
    have e2 : ((g.predecessors n).toFinset \ popped.toFinset) ∩ queue.toFinset
        = queue.toFinset ∩ (g.predecessors n).toFinset := by
      ext x
      simp only [Finset.mem_sdiff, Finset.mem_inter]
      constructor
      · rintro ⟨⟨hxa, -⟩, hxq⟩
        exact ⟨hxq, hxa⟩
      · rintro ⟨hxq, hxa⟩
        exact ⟨⟨hxa, fun hxp => inv.disj x (List.mem_toFinset.1 hxq)
          (List.mem_toFinset.1 hxp)⟩, hxq⟩
    have hcard := Finset.card_sdiff_add_card_inter
      ((g.predecessors n).toFinset \ popped.toFinset) queue.toFinset
    rw [e1, e2] at hcard
    omega
  · intro n hn
    rcases List.mem_append.1 hn with h | h
    · intro p hp
      exact List.mem_append.2 (Or.inl (inv.popped_closed n h p hp))
    · intro p hp
      exact List.mem_append.2 (Or.inl (((inv.queue_iff n (inv.queue_sub n h)).1 h).2 p hp))
  · -- queue_iff for the new state
    intro n hnids
    rw [hr2 n]
    constructor
    · rintro ⟨hmem, hcq⟩
      have hpos : 1 ≤ ds.count n := List.count_pos_iff.2 hmem
      obtain ⟨h1, h2⟩ := hnotP n hnids hcq hpos
      refine ⟨fun hc => ?_, ?_⟩
      · rcases List.mem_append.1 hc with h | h
        · exact h1 h
        · exact h2 h
      · -- predecessors are covered by popped ++ queue
        have hQA : queue.toFinset ∩ (g.predecessors n).toFinset
            = (g.predecessors n).toFinset \ popped.toFinset := by
          refine Finset.eq_of_subset_of_card_le (hsubQA n) ?_
          have : ((g.predecessors n).toFinset \ popped.toFinset).card = ds.count n := by
            rw [inv.val_eq n hnids] at hcq
            exact_mod_cast hcq.symm
          rw [this, hcount n]
        intro p hp
        by_cases hpp : p ∈ popped
        · exact List.mem_append.2 (Or.inl hpp)
        · have : p ∈ (g.predecessors n).toFinset \ popped.toFinset := by
            rw [Finset.mem_sdiff]
            exact ⟨List.mem_toFinset.2 hp, fun hc => hpp (List.mem_toFinset.1 hc)⟩
          rw [← hQA, Finset.mem_inter] at this
          exact List.mem_append.2 (Or.inr (List.mem_toFinset.1 this.1))
    · rintro ⟨hnp, hsubp⟩
      have hnpop : n ∉ popped := fun hc => hnp (List.mem_append.2 (Or.inl hc))
      have hnq : n ∉ queue := fun hc => hnp (List.mem_append.2 (Or.inr hc))
      have hAP : (g.predecessors n).toFinset \ popped.toFinset
          = queue.toFinset ∩ (g.predecessors n).toFinset := by
        apply Finset.Subset.antisymm
        · intro x hx
          rw [Finset.mem_sdiff] at hx
          have hxpred : x ∈ g.predecessors n := List.mem_toFinset.1 hx.1
          have hxpq := hsubp x hxpred
          rcases List.mem_append.1 hxpq with h | h
          · exact absurd (List.mem_toFinset.2 h) hx.2
          · rw [Finset.mem_inter]
            exact ⟨List.mem_toFinset.2 h, hx.1⟩
        · exact hsubQA n
      have hne : (g.predecessors n).toFinset \ popped.toFinset ≠ ∅ := by
        intro hempty
        have hclosed : ∀ p ∈ g.predecessors n, p ∈ popped := by
          intro p hp
          by_contra hpp
          have : p ∈ (g.predecessors n).toFinset \ popped.toFinset := by
            rw [Finset.mem_sdiff]
            exact ⟨List.mem_toFinset.2 hp, fun hc => hpp (List.mem_toFinset.1 hc)⟩
          rw [hempty] at this
          exact absurd this (Finset.not_mem_empty p)
        exact hnq ((inv.queue_iff n hnids).2 ⟨hnpop, hclosed⟩)
      have hposcard : 1 ≤ ((g.predecessors n).toFinset \ popped.toFinset).card :=
        Finset.card_pos.2 (Finset.nonempty_iff_ne_empty.2 hne)
      have hcnt_eq : ds.count n = ((g.predecessors n).toFinset \ popped.toFinset).card := by
        rw [hcount n, hAP]
      refine ⟨?_, ?_⟩
      · rw [← List.count_pos_iff]
        omega
      · rw [inv.val_eq n hnids, hcnt_eq]

theorem ival_initMap (ids : List String) (f : String → Int) {n : String} (hn : n ∈ ids) :
    ival (ids.map fun nid => (nid, f nid)) n = f n := by
  induction ids with
  | nil => cases hn
  | cons a rest ih =>
    by_cases ha : a = n
    · subst ha
      simp [ival, dictGetD, dictGet]
    · have hn' : n ∈ rest := by
        rcases List.mem_cons.1 hn with h | h
        · exact absurd h.symm ha
        · exact h
      simp only [List.map_cons, ival, dictGetD, dictGet, ha, if_false] at ih ⊢
      exact ih hn'

theorem dictKeys_initMap (ids : List String) (f : String → Int) :
    dictKeys (ids.map fun nid => (nid, f nid)) = ids := by
  induction ids with
  | nil => rfl
  | cons a rest ih => simp [dictKeys] at ih ⊢; exact ih

/-- The state right before the while-loop satisfies the invariant. -/
theorem KahnInv.init {g : Graph} (hwf : g.WF) :
    KahnInv g []
      (g.node_ids.map fun nid => (nid, ((g.predecessors nid).length : Int)))
      (((g.node_ids.map fun nid => (nid, ((g.predecessors nid).length : Int))).filter
        fun p => p.2 = 0).map Prod.fst) := by
  set f : String → Int := fun nid => ((g.predecessors nid).length : Int) with hf
  set indeg := g.node_ids.map fun nid => (nid, f nid) with hindeg
  have hqmem : ∀ n, (n ∈ ((indeg.filter fun p => p.2 = 0).map Prod.fst)
      ↔ n ∈ g.node_ids ∧ f n = 0) := by
    intro n
    rw [List.mem_map]
    constructor
    · rintro ⟨pr, hpr, hfst⟩
      rw [List.mem_filter] at hpr
      obtain ⟨hpr1, hpr2⟩ := hpr
      rw [hindeg, List.mem_map] at hpr1
      obtain ⟨nid, hnid, hpreq⟩ := hpr1
      rw [← hpreq] at hfst hpr2
      simp only [decide_eq_true_eq] at hpr2
      rw [← hfst]
      exact ⟨hnid, hpr2⟩
    · rintro ⟨hnid, hzero⟩
      refine ⟨(n, f n), ?_, rfl⟩
      rw [List.mem_filter]
      constructor
      · rw [hindeg, List.mem_map]
        exact ⟨n, hnid, rfl⟩
      · simp only [decide_eq_true_eq]
        exact hzero
  have hqnodup : (((indeg.filter fun p => p.2 = 0)).map Prod.fst).Nodup := by
    have h1 : List.Sublist (indeg.filter fun p => p.2 = 0) indeg := List.filter_sublist _
    have h2 : List.Sublist ((indeg.filter fun p => p.2 = 0).map Prod.fst)
        (indeg.map Prod.fst) := h1.map Prod.fst
    have h3 : (indeg.map Prod.fst).Nodup := by
      show (dictKeys indeg).Nodup
      rw [hindeg, dictKeys_initMap]
      exact hwf.1
    exact h3.sublist h2
  have hpredzero : ∀ n, (f n = 0 ↔ ∀ p ∈ g.predecessors n, p ∈ ([] : List String)) := by
    intro n
    rw [hf]
    simp only [Int.natCast_eq_zero, List.length_eq_zero, List.not_mem_nil]
    constructor
    · intro h p hp
      rw [h] at hp
      exact absurd hp (by simp)
    · intro h
      rw [List.eq_nil_iff_forall_not_mem]
      exact fun p hp => h p hp
  refine ⟨by rw [hindeg, dictKeys_initMap], by simp, ?_, List.nodup_nil, hqnodup,
    by simp, ?_, by simp, ?_⟩
  · intro n hn
    exact ((hqmem n).1 hn).1
  · intro n hn
    rw [hindeg, ival_initMap g.node_ids f hn]
    simp only [List.toFinset_nil, Finset.sdiff_empty, hf]
    rw [List.toFinset_card_of_nodup (g.preds_nodup hwf n)]
  · intro n hn
    rw [hqmem n]
    constructor
    · rintro ⟨-, hzero⟩
      exact ⟨by simp, (hpredzero n).1 hzero⟩
    · rintro ⟨-, hpred⟩
      exact ⟨hn, (hpredzero n).2 hpred⟩

/-- The per-level recurrence satisfied by the emitted levels, starting from
an already-popped prefix: each level is exactly the set of registered,
not-yet-emitted nodes all of whose predecessors have been emitted. -/
def LevelsFrom (g : Graph) : List String → List (List String) → Prop
  | _, [] => True
  | popped, L :: rest =>
    (∀ n, n ∈ L ↔ n ∈ g.node_ids ∧ n ∉ popped ∧ ∀ p ∈ g.predecessors n, p ∈ popped)
    ∧ L.Nodup ∧ LevelsFrom g (popped ++ L) rest

theorem kahnLoop_spec (g : Graph) (hwf : g.WF) :
    ∀ (fuel : Nat) (popped : List String) (indeg : List (String × Int))
      (queue : List String) (acc : List (List String)) (visited : Nat),
    KahnInv g popped indeg queue →
    g.node_ids.length ≤ fuel + popped.length →
    ∃ rest : List (List String),
      kahnLoop g.succs fuel indeg queue acc visited
        = (acc.reverse ++ rest, visited + rest.flatten.length)
      ∧ LevelsFrom g popped rest
      ∧ (popped ++ rest.flatten).Nodup
      ∧ (∀ n ∈ rest.flatten, n ∈ g.node_ids)
      ∧ (∀ n ∈ g.node_ids, n ∉ popped → n ∉ rest.flatten →
          ∃ p ∈ g.predecessors n, p ∉ popped ∧ p ∉ rest.flatten) := by
  intro fuel
  induction fuel with
  | zero =>
    intro popped indeg queue acc visited inv hbound
    have hcover : ∀ n ∈ g.node_ids, n ∈ popped := by
      have hsubF : popped.toFinset ⊆ g.node_ids.toFinset := by
        intro x hx
        exact List.mem_toFinset.2 (inv.popped_sub x (List.mem_toFinset.1 hx))
      have hidsnodup : g.node_ids.Nodup := hwf.1
      have hcards : g.node_ids.toFinset.card ≤ popped.toFinset.card := by
        rw [List.toFinset_card_of_nodup inv.popped_nodup,
          List.toFinset_card_of_nodup hidsnodup]
        omega
      have := Finset.eq_of_subset_of_card_le hsubF hcards
      intro n hn
      exact List.mem_toFinset.1 (this ▸ List.mem_toFinset.2 hn)
    refine ⟨[], ?_, trivial, ?_, by simp, ?_⟩
    · show (acc.reverse, visited) = (acc.reverse ++ [], visited + List.length [].flatten)
      simp
    · simp only [List.flatten_nil, List.append_nil]
      exact inv.popped_nodup
    · intro n hn hnp _
      exact absurd (hcover n hn) hnp
  | succ fuel ih =>
    intro popped indeg queue acc visited inv hbound
    by_cases hq : queue = []
    · subst hq
      refine ⟨[], ?_, trivial, ?_, by simp, ?_⟩
      · show kahnLoop g.succs (fuel + 1) indeg [] acc visited
          = (acc.reverse ++ [], visited + List.length [].flatten)
        rw [kahnLoop]
        simp
      · simp only [List.flatten_nil, List.append_nil]
        exact inv.popped_nodup
      · intro n hn hnp _
        have : ¬(n ∉ popped ∧ ∀ p ∈ g.predecessors n, p ∈ popped) := by
          intro hc
          exact absurd ((inv.queue_iff n hn).2 hc) (by simp)
        push_neg at this
        obtain ⟨p, hp, hpp⟩ := this hnp
        exact ⟨p, hp, hpp, by simp⟩
    · have hqlen : 1 ≤ queue.length := by
        cases queue with
        | nil => exact absurd rfl hq
        | cons a l => simp
      have inv' := inv.step hwf
      have hbound' : g.node_ids.length ≤ fuel + (popped ++ queue).length := by
        rw [List.length_append]
        omega
      obtain ⟨rest', heq, hlf, hnd, hsub, hfin⟩ :=
        ih (popped ++ queue) (processLevel g.succs queue indeg).1
          (processLevel g.succs queue indeg).2 (queue :: acc)
          (visited + queue.length) inv' hbound'
      refine ⟨queue :: rest', ?_, ?_, ?_, ?_, ?_⟩
      · show kahnLoop g.succs (fuel + 1) indeg queue acc visited
          = (acc.reverse ++ (queue :: rest'), visited + List.length (queue :: rest').flatten)
        rw [kahnLoop, if_neg hq]
        rw [heq]
        simp only [Prod.mk.injEq]
        refine ⟨?_, ?_⟩
        · rw [List.reverse_cons, List.append_assoc]
          rfl
        · rw [List.flatten_cons, List.length_append]
          omega
      · exact ⟨fun n => by
            constructor
            · intro hn
              have hnids := inv.queue_sub n hn
              exact ⟨hnids, ((inv.queue_iff n hnids).1 hn).1, ((inv.queue_iff n hnids).1 hn).2⟩
            · rintro ⟨hnids, hnp, hpred⟩
              exact (inv.queue_iff n hnids).2 ⟨hnp, hpred⟩,
          inv.queue_nodup, hlf⟩
      · rw [List.flatten_cons, ← List.append_assoc]
        exact hnd
      · intro n hn
        rw [List.flatten_cons, List.mem_append] at hn
        rcases hn with h | h
        · exact inv.queue_sub n h
        · exact hsub n h
      · intro n hn hnp hnj
        rw [List.flatten_cons, List.mem_append] at hnj
        push_neg at hnj
        have hnpq : n ∉ popped ++ queue := by
          rw [List.mem_append]
          push_neg
          exact ⟨hnp, hnj.1⟩
        obtain ⟨p, hp, hp1, hp2⟩ := hfin n hn hnpq hnj.2
        rw [List.mem_append] at hp1
        push_neg at hp1
        refine ⟨p, hp, hp1.1, ?_⟩
        rw [List.flatten_cons, List.mem_append]
        push_neg
        exact ⟨hp1.2, hp2⟩

/-- Running `Graph.levels` under well-formedness: the emitted levels satisfy
the per-level recurrence, are duplicate-free, cover only registered ids, every
uncovered node keeps an uncovered predecessor, and the result is `ok` exactly
when the cover is complete. -/
theorem levels_raw (g : Graph) (hwf : g.WF) :
    ∃ rest : List (List String),
      LevelsFrom g [] rest
      ∧ rest.flatten.Nodup
      ∧ (∀ n ∈ rest.flatten, n ∈ g.node_ids)
      ∧ (∀ n ∈ g.node_ids, n ∉ rest.flatten → ∃ p ∈ g.predecessors n, p ∉ rest.flatten)
      ∧ (rest.flatten.length = g.node_ids.length → g.levels = .ok rest)
      ∧ (rest.flatten.length ≠ g.node_ids.length → ∃ e, g.levels = .error e) := by
  obtain ⟨rest, heq, hlf, hnd, hsub, hfin⟩ :=
    kahnLoop_spec g hwf g.node_ids.length []
      (g.node_ids.map fun nid => (nid, ((g.predecessors nid).length : Int)))
      (((g.node_ids.map fun nid => (nid, ((g.predecessors nid).length : Int))).filter
        fun p => p.2 = 0).map Prod.fst)
      [] 0 (KahnInv.init hwf) (by omega)
  simp only [List.nil_append] at hnd
  refine ⟨rest, hlf, hnd, hsub, ?_, ?_, ?_⟩
  · intro n hn hnj
    obtain ⟨p, hp, hp1, hp2⟩ := hfin n hn (by simp) hnj
    exact ⟨p, hp, hp2⟩
  · intro hlen
    show (if (kahnLoop g.succs g.node_ids.length
        (g.node_ids.map fun nid => (nid, ((g.predecessors nid).length : Int)))
        (((g.node_ids.map fun nid => (nid, ((g.predecessors nid).length : Int))).filter
          fun p => p.2 = 0).map Prod.fst) [] 0).2 ≠ g.node_ids.length then _ else _) = _
    rw [heq]
    simp [hlen]
  · intro hlen
    show ∃ e, (if (kahnLoop g.succs g.node_ids.length
        (g.node_ids.map fun nid => (nid, ((g.predecessors nid).length : Int)))
        (((g.node_ids.map fun nid => (nid, ((g.predecessors nid).length : Int))).filter
          fun p => p.2 = 0).map Prod.fst) [] 0).2 ≠ g.node_ids.length then _ else _)
      = Except.error e
    have hlen2 : (List.map List.length rest).sum ≠ g.node_ids.length := by
      rw [← List.length_flatten]
      exact hlen
    rw [heq]
    simp [hlen, hlen2]

/-- When `levels` succeeds, the levels satisfy the recurrence and cover the
registered ids exactly. -/
theorem levels_ok_cover (g : Graph) (hwf : g.WF) {lvls : List (List String)}
    (h : g.levels = .ok lvls) :
    LevelsFrom g [] lvls ∧ lvls.flatten.Nodup
      ∧ (∀ n, n ∈ lvls.flatten ↔ n ∈ g.node_ids) := by
  obtain ⟨rest, hlf, hnd, hsub, hfin, hok, herr⟩ := levels_raw g hwf
  by_cases hlen : rest.flatten.length = g.node_ids.length
  · have := hok hlen
    rw [h] at this
    have hre : lvls = rest := by
      injection this with h2
    subst hre
    refine ⟨hlf, hnd, fun n => ⟨fun hn => hsub n hn, fun hn => ?_⟩⟩
    by_contra hnj
    -- the cover has full cardinality, so it contains every registered id
    have hsubF : lvls.flatten.toFinset ⊆ g.node_ids.toFinset := by
      intro x hx
      exact List.mem_toFinset.2 (hsub x (List.mem_toFinset.1 hx))
    have hidsnodup : g.node_ids.Nodup := hwf.1
    have hcards : g.node_ids.toFinset.card ≤ lvls.flatten.toFinset.card := by
      rw [List.toFinset_card_of_nodup hnd, List.toFinset_card_of_nodup hidsnodup]
      omega
    have heqF := Finset.eq_of_subset_of_card_le hsubF hcards
    exact hnj (List.mem_toFinset.1 (heqF ▸ List.mem_toFinset.2 hn))
  · obtain ⟨e, he⟩ := herr hlen
    rw [h] at he
    exact Except.noConfusion he

/-- When `levels` fails, there is a nonempty set of registered nodes each of
which keeps a predecessor inside the set. -/
theorem levels_error_unvisited (g : Graph) (hwf : g.WF) {e : String}
    (h : g.levels = .error e) :
    ∃ U : List String, U ≠ [] ∧ (∀ n ∈ U, n ∈ g.node_ids)
      ∧ (∀ n ∈ U, ∃ p ∈ g.predecessors n, p ∈ U) := by
  obtain ⟨rest, hlf, hnd, hsub, hfin, hok, herr⟩ := levels_raw g hwf
  by_cases hlen : rest.flatten.length = g.node_ids.length
  · have := hok hlen
    rw [h] at this
    exact Except.noConfusion this
  · refine ⟨g.node_ids.filter (fun n => decide (n ∉ rest.flatten)), ?_, ?_, ?_⟩
    · -- nonempty: a full cover would force equal lengths
      have hwit : ∃ n ∈ g.node_ids, n ∉ rest.flatten := by
        by_contra hall
        push_neg at hall
        have hsubF : g.node_ids.toFinset ⊆ rest.flatten.toFinset := by
          intro x hx
          exact List.mem_toFinset.2 (hall x (List.mem_toFinset.1 hx))
        have hsubF' : rest.flatten.toFinset ⊆ g.node_ids.toFinset := by
          intro x hx
          exact List.mem_toFinset.2 (hsub x (List.mem_toFinset.1 hx))
        have hidsnodup : g.node_ids.Nodup := hwf.1
        have : rest.flatten.length = g.node_ids.length := by
          rw [← List.toFinset_card_of_nodup hnd, ← List.toFinset_card_of_nodup hidsnodup]
          rw [Finset.Subset.antisymm hsubF' hsubF]
        exact hlen this
      obtain ⟨n, hn, hnj⟩ := hwit
      have hmemf : n ∈ g.node_ids.filter (fun m => decide (m ∉ rest.flatten)) := by
        rw [List.mem_filter]
        exact ⟨hn, by simp [hnj]⟩
      exact List.ne_nil_of_mem hmemf
    · intro n hn
      rw [List.mem_filter] at hn
      exact hn.1
    · intro n hn
      rw [List.mem_filter] at hn
      obtain ⟨hnids, hnj⟩ := hn
      simp only [decide_eq_true_eq] at hnj
      obtain ⟨p, hp, hpj⟩ := hfin n hnids hnj
      refine ⟨p, hp, ?_⟩
      rw [List.mem_filter]
      exact ⟨g.preds_mem_ids hwf hp, by simp [hpj]⟩

/-- A nonempty set of registered nodes, each with a predecessor inside the
set, yields a directed cycle (finite pigeonhole on a backward chain). -/
theorem cycle_of_closed_set (g : Graph) (hwf : g.WF) (U : List String) (hne : U ≠ [])
    (hids : ∀ n ∈ U, n ∈ g.node_ids) (hcl : ∀ n ∈ U, ∃ p ∈ g.predecessors n, p ∈ U) :
    g.HasCycle := by
  classical
  obtain ⟨n₀, hn₀⟩ := List.exists_mem_of_ne_nil U hne
  let T := { x : String // x ∈ U }
  have hf : ∀ t : T, ∃ p : T, g.hasEdge p.1 t.1 := by
    rintro ⟨x, hx⟩
    obtain ⟨p, hp, hpU⟩ := hcl x hx
    exact ⟨⟨p, hpU⟩, (g.consistent hwf p x).2 hp⟩
  choose f hfe using hf
  let u : Nat → T := fun k => f^[k] ⟨n₀, hn₀⟩
  have hstep : ∀ k, g.hasEdge (u (k + 1)).1 (u k).1 := by
    intro k
    have : u (k + 1) = f (u k) := Function.iterate_succ_apply' f k _
    rw [this]
    exact hfe (u k)
  have hchain : ∀ j i, i < j → Relation.TransGen g.hasEdge (u j).1 (u i).1 := by
    intro j
    induction j with
    | zero => intro i hi; cases hi
    | succ j' ihj =>
      intro i hi
      rcases Nat.lt_succ_iff_lt_or_eq.1 hi with h | h
      · exact (Relation.TransGen.single (hstep j')).trans (ihj i h)
      · subst h
        exact Relation.TransGen.single (hstep i)
  -- pigeonhole: two equal values along the chain
  have hmaps : ∀ k ∈ Finset.range (U.toFinset.card + 1), (u k).1 ∈ U.toFinset :=
    fun k _ => List.mem_toFinset.2 (u k).2
  have hcardlt : U.toFinset.card < (Finset.range (U.toFinset.card + 1)).card := by
    rw [Finset.card_range]
    omega
  obtain ⟨i, hi, j, hj, hij, hueq⟩ :=
    Finset.exists_ne_map_eq_of_card_lt_of_maps_to hcardlt hmaps
  rcases Nat.lt_or_ge i j with h | h
  · exact ⟨(u i).1, hueq ▸ hchain j i h⟩
  · have h' : j < i := Nat.lt_of_le_of_ne h (fun he => hij he.symm)
    exact ⟨(u j).1, hueq ▸ hchain i j h'⟩

/-- Index form of the level recurrence: membership in level `k` says exactly
that the node is registered, not in an earlier level, and all its
predecessors are in earlier levels. -/
theorem LevelsFrom_char (g : Graph) :
    ∀ (lvls : List (List String)) (popped : List String), LevelsFrom g popped lvls →
    ∀ (k : Nat) (hk : k < lvls.length) (n : String),
      n ∈ lvls.get ⟨k, hk⟩ ↔
        (n ∈ g.node_ids ∧ n ∉ popped ++ (lvls.take k).flatten
          ∧ ∀ p ∈ g.predecessors n, p ∈ popped ++ (lvls.take k).flatten) := by
  intro lvls
  induction lvls with
  | nil =>
    intro popped _ k hk
    exact absurd hk (Nat.not_lt_zero k)
  | cons L rest ih =>
    intro popped hlf k hk n
    obtain ⟨hiff, hnd, hlf'⟩ := hlf
    cases k with
    | zero =>
      simpa using hiff n
    | succ k' =>
      have hk' : k' < rest.length := Nat.lt_of_succ_lt_succ hk
      have := ih (popped ++ L) hlf' k' hk' n
      simpa [List.append_assoc] using this

theorem LevelsFrom_unique_aux (g : Graph) {lvls : List (List String)}
    (hlf : LevelsFrom g [] lvls) {n : String} {i j : Nat} (hij : i < j)
    (hi : i < lvls.length) (hj : j < lvls.length)
    (hni : n ∈ lvls.get ⟨i, hi⟩) (hnj : n ∈ lvls.get ⟨j, hj⟩) : False := by
  have hcj := (LevelsFrom_char g lvls [] hlf j hj n).1 hnj
  apply hcj.2.1
  rw [List.nil_append]
  rw [List.mem_flatten]
  refine ⟨lvls.get ⟨i, hi⟩, ?_, hni⟩
  have hlen : i < (lvls.take j).length := by
    rw [List.length_take]
    omega
  have : (lvls.take j).get ⟨i, hlen⟩ = lvls.get ⟨i, hi⟩ := by
    simp [List.getElem_take]
  rw [← this]
  exact List.get_mem _ _ _

/-- Each node appears at one level index only. -/
theorem LevelsFrom_unique (g : Graph) {lvls : List (List String)}
    (hlf : LevelsFrom g [] lvls) {n : String} {i j : Nat} (hi : i < lvls.length)
    (hj : j < lvls.length) (hni : n ∈ lvls.get ⟨i, hi⟩) (hnj : n ∈ lvls.get ⟨j, hj⟩) :
    i = j := by
  rcases Nat.lt_trichotomy i j with h | h | h
  · exact absurd (LevelsFrom_unique_aux g hlf h hi hj hni hnj) (by simp)
  · exact h
  · exact absurd (LevelsFrom_unique_aux g hlf h hj hi hnj hni) (by simp)

/-- A member of an earlier-levels flatten has an index below the bound. -/
theorem mem_take_flatten_idx {lvls : List (List String)} {j : Nat} {x : String}
    (hx : x ∈ (lvls.take j).flatten) :
    ∃ (i : Nat) (hi : i < lvls.length), i < j ∧ x ∈ lvls.get ⟨i, hi⟩ := by
  rw [List.mem_flatten] at hx
  obtain ⟨l, hl, hxl⟩ := hx
  obtain ⟨⟨i, hil⟩, hgl⟩ := List.mem_iff_get.1 hl
  have hlen : (lvls.take j).length = min j lvls.length := List.length_take j lvls
  have hi1 : i < lvls.length := by omega
  have hi2 : i < j := by omega
  refine ⟨i, hi1, hi2, ?_⟩
  have : (lvls.take j).get ⟨i, hil⟩ = lvls.get ⟨i, hi1⟩ := by
    simp [List.getElem_take]
  rw [← hgl, this] at hxl
  exact hxl

/-- Every predecessor of a node sits at a strictly earlier level. -/
theorem LevelsFrom_pred_lt (g : Graph) {lvls : List (List String)}
    (hlf : LevelsFrom g [] lvls) {n p : String} {j : Nat} (hj : j < lvls.length)
    (hnj : n ∈ lvls.get ⟨j, hj⟩) (hp : p ∈ g.predecessors n) :
    ∃ (i : Nat) (hi : i < lvls.length), i < j ∧ p ∈ lvls.get ⟨i, hi⟩ := by
  have hcj := (LevelsFrom_char g lvls [] hlf j hj n).1 hnj
  have := hcj.2.2 p hp
  rw [List.nil_append] at this
  exact mem_take_flatten_idx this

/-- Strict level ordering along an edge. -/
theorem LevelsFrom_edge_lt (g : Graph) (hwf : g.WF) {lvls : List (List String)}
    (hlf : LevelsFrom g [] lvls) {u v : String} (he : g.hasEdge u v)
    {i j : Nat} (hi : i < lvls.length) (hj : j < lvls.length)
    (hu : u ∈ lvls.get ⟨i, hi⟩) (hv : v ∈ lvls.get ⟨j, hj⟩) : i < j := by
  have hp : u ∈ g.predecessors v := (g.consistent hwf u v).1 he
  obtain ⟨i', hi', hij, hui'⟩ := LevelsFrom_pred_lt g hlf hj hv hp
  have : i = i' := LevelsFrom_unique g hlf hi hi' hu hui'
  omega

/-- Success of `levels` implies acyclicity. -/
theorem acyclic_of_levels_ok (g : Graph) (hwf : g.WF) {lvls : List (List String)}
    (h : g.levels = .ok lvls) : g.Acyclic := by
  obtain ⟨hlf, hnd, hcov⟩ := levels_ok_cover g hwf h
  have hidx : ∀ n ∈ g.node_ids, ∃ (i : Nat) (hi : i < lvls.length), n ∈ lvls.get ⟨i, hi⟩ := by
    intro n hn
    have : n ∈ lvls.flatten := (hcov n).2 hn
    rw [List.mem_flatten] at this
    obtain ⟨l, hl, hnl⟩ := this
    obtain ⟨⟨i, hil⟩, hgl⟩ := List.mem_iff_get.1 hl
    exact ⟨i, hil, by rw [hgl]; exact hnl⟩
  have hmem : ∀ u v, Relation.TransGen g.hasEdge u v → u ∈ g.node_ids := by
    intro u v h
    induction h with
    | single e => exact g.hasEdge_mem_left hwf e
    | tail _ _ ihm => exact ihm
  have htrans : ∀ u v, Relation.TransGen g.hasEdge u v →
      ∀ (i j : Nat) (hi : i < lvls.length) (hj : j < lvls.length),
        u ∈ lvls.get ⟨i, hi⟩ → v ∈ lvls.get ⟨j, hj⟩ → i < j := by
    intro u v h
    induction h with
    | single e =>
      intro i j hi hj hu hv
      exact LevelsFrom_edge_lt g hwf hlf e hi hj hu hv
    | tail hub e ihP =>
      rename_i b c
      intro i j hi hj hu hv
      have hb : b ∈ g.node_ids := g.hasEdge_mem_left hwf e
      obtain ⟨k, hk, hbk⟩ := hidx b hb
      exact Nat.lt_trans (ihP i k hi hk hu hbk) (LevelsFrom_edge_lt g hwf hlf e hk hj hbk hv)
  rintro ⟨u, hcyc⟩
  obtain ⟨i, hi, hui⟩ := hidx u (hmem u u hcyc)
  exact Nat.lt_irrefl i (htrans u u hcyc i i hi hi hui hui)

/-- The exact cycle test: `levels` fails iff the graph has a cycle. -/
theorem levels_error_iff_hasCycle (g : Graph) (hwf : g.WF) :
    (∃ e, g.levels = .error e) ↔ g.HasCycle := by
  constructor
  · rintro ⟨e, he⟩
    obtain ⟨U, hne, hids, hcl⟩ := levels_error_unvisited g hwf he
    exact cycle_of_closed_set g hwf U hne hids hcl
  · intro hcyc
    cases hlev : g.levels with
    | error e => exact ⟨e, rfl⟩
    | ok lvls => exact absurd hcyc (acyclic_of_levels_ok g hwf hlev)

theorem mem_take_flatten_of_idx {lvls : List (List String)} {i j : Nat} {x : String}
    (hij : i < j) (hi : i < lvls.length) (hx : x ∈ lvls.get ⟨i, hi⟩) :
    x ∈ (lvls.take j).flatten := by
  rw [List.mem_flatten]
  have hlen : i < (lvls.take j).length := by
    rw [List.length_take]
    omega
  refine ⟨(lvls.take j).get ⟨i, hlen⟩, List.get_mem _ _ _, ?_⟩
  have : (lvls.take j).get ⟨i, hlen⟩ = lvls.get ⟨i, hi⟩ := by
    simp [List.getElem_take]
  rw [this]
  exact hx

/-! ## Claim C1 and C2 theorems -/

/-- C1: for every acyclic well-formed graph, `Graph.levels` succeeds and
partitions the registered node ids — every registered node appears at
exactly one group index; for every edge (u→v) the group index of u is
strictly less than that of v; and each node sits at the earliest possible
group (Kahn maximality): a node with no predecessors is in group 0, and
otherwise every predecessor sits strictly below it and some predecessor sits
exactly one group below. -/
theorem C1_levels_partition_order_maximality (g : Graph) (hwf : g.WF) (hacyc : g.Acyclic) :
    ∃ lvls : List (List String), g.levels = .ok lvls
      ∧ (∀ n ∈ g.node_ids, ∃! k : Fin lvls.length, n ∈ lvls.get k)
      ∧ (∀ u v, g.hasEdge u v →
          ∀ (i j : Fin lvls.length), u ∈ lvls.get i → v ∈ lvls.get j → (i : Nat) < (j : Nat))
      ∧ (∀ n (j : Fin lvls.length), n ∈ lvls.get j →
          ((g.predecessors n = [] → (j : Nat) = 0)
            ∧ (g.predecessors n ≠ [] →
                (∀ p ∈ g.predecessors n, ∀ i : Fin lvls.length,
                    p ∈ lvls.get i → (i : Nat) < (j : Nat))
                ∧ (∃ p ∈ g.predecessors n, ∃ hi : (j : Nat) - 1 < lvls.length,
                    p ∈ lvls.get ⟨(j : Nat) - 1, hi⟩)))) := by
  cases hlev : g.levels with
  | error e =>
    exact absurd ((levels_error_iff_hasCycle g hwf).1 ⟨e, hlev⟩) hacyc
  | ok lvls =>
    obtain ⟨hlf, hnd, hcov⟩ := levels_ok_cover g hwf hlev
    have hidx : ∀ n ∈ g.node_ids, ∃ (i : Nat) (hi : i < lvls.length),
        n ∈ lvls.get ⟨i, hi⟩ := by
      intro n hn
      have : n ∈ lvls.flatten := (hcov n).2 hn
      rw [List.mem_flatten] at this
      obtain ⟨l, hl, hnl⟩ := this
      obtain ⟨⟨i, hil⟩, hgl⟩ := List.mem_iff_get.1 hl
      exact ⟨i, hil, by rw [hgl]; exact hnl⟩
    refine ⟨lvls, rfl, ?_, ?_, ?_⟩
    · intro n hn
      obtain ⟨i, hi, hmem⟩ := hidx n hn
      refine ⟨⟨i, hi⟩, hmem, ?_⟩
      rintro ⟨y, hy⟩ hymem
      exact Fin.ext (LevelsFrom_unique g hlf hy hi hymem hmem)
    · rintro u v he ⟨i, hi⟩ ⟨j, hj⟩ hu hv
      exact LevelsFrom_edge_lt g hwf hlf he hi hj hu hv
    · rintro n ⟨j, hj⟩ hnj
      constructor
      · intro hempty
        have h0 : 0 < lvls.length := Nat.lt_of_le_of_lt (Nat.zero_le j) hj
        have hn0 : n ∈ lvls.get ⟨0, h0⟩ := by
          rw [LevelsFrom_char g lvls [] hlf 0 h0 n]
          have hnids : n ∈ g.node_ids :=
            ((LevelsFrom_char g lvls [] hlf j hj n).1 hnj).1
          refine ⟨hnids, by simp, ?_⟩
          intro p hp
          rw [hempty] at hp
          exact absurd hp (by simp)
        exact LevelsFrom_unique g hlf hj h0 hnj hn0
      · intro hne
        have hchars := (LevelsFrom_char g lvls [] hlf j hj n).1 hnj
        constructor
        · rintro p hp ⟨i, hi⟩ hpi
          obtain ⟨i', hi', hij, hpi'⟩ := LevelsFrom_pred_lt g hlf hj hnj hp
          have : i = i' := LevelsFrom_unique g hlf hi hi' hpi hpi'
          show i < j
          omega
        · -- j ≥ 1, and some predecessor is at exactly level j - 1
          have hjpos : 1 ≤ j := by
            by_contra hj0
            have hj0' : j = 0 := by omega
            subst hj0'
            obtain ⟨p, hp⟩ := List.exists_mem_of_ne_nil _ hne
            have := hchars.2.2 p hp
            simp at this
          have hj1 : j - 1 < lvls.length := by omega
          have hwit : ∃ p ∈ g.predecessors n, p ∉ (lvls.take (j - 1)).flatten := by
            by_contra hall
            push_neg at hall
            have hnj1 : n ∈ lvls.get ⟨j - 1, hj1⟩ := by
              rw [LevelsFrom_char g lvls [] hlf (j - 1) hj1 n]
              refine ⟨hchars.1, ?_, ?_⟩
              · rw [List.nil_append]
                intro hc
                apply hchars.2.1
                rw [List.nil_append]
                obtain ⟨i, hi, hij, hmem⟩ := mem_take_flatten_idx hc
                exact mem_take_flatten_of_idx (by omega) hi hmem
              · intro p hp
                rw [List.nil_append]
                exact hall p hp
            have := LevelsFrom_unique g hlf hj hj1 hnj hnj1
            omega
          obtain ⟨p, hp, hpnot⟩ := hwit
          have hpin : p ∈ (lvls.take j).flatten := by
            have := hchars.2.2 p hp
            rw [List.nil_append] at this
            exact this
          obtain ⟨i, hi, hij, hpi⟩ := mem_take_flatten_idx hpin
          have hieq : i = j - 1 := by
            by_contra hine
            exact hpnot (mem_take_flatten_of_idx (by omega) hi hpi)
          refine ⟨p, hp, hj1, ?_⟩
          subst hieq
          exact hpi

/-- C2: `Graph.levels` fails with a `CycleError` if and only if the graph
contains a directed cycle — the emitted-count check is an exact acyclicity
test with no false positives or negatives. -/
theorem C2_levels_error_iff_cycle (g : Graph) (hwf : g.WF) :
    (∃ e, g.levels = .error e) ↔ g.HasCycle :=
  levels_error_iff_hasCycle g hwf

/-! ### Concrete graphs for the witnesses -/

def succBeh : NodeBeh := fun _ => { status := .success }

def mkN (s : String) : PNode := ⟨s, succBeh⟩

def orEmpty (x : Except String Graph) : Graph :=
  match x with
  | .ok g => g
  | .error _ => Graph.empty

/-- Scenario B diamond: a→b, a→c, b→d, c→d. -/
def gDiamond : Graph :=
  orEmpty ((orEmpty ((orEmpty ((orEmpty
    (((((Graph.empty.add_node (mkN "a")).add_node (mkN "b")).add_node
      (mkN "c")).add_node (mkN "d")).add_edge "a" "b")).add_edge "a" "c")).add_edge
        "b" "d")).add_edge "c" "d")

/-- Two-node cycle: a→b, b→a. -/
def gCyc : Graph :=
  orEmpty ((orEmpty (((Graph.empty.add_node (mkN "a")).add_node
    (mkN "b")).add_edge "a" "b")).add_edge "b" "a")

theorem gDiamond_acyclic : gDiamond.Acyclic := by
  intro hcyc
  obtain ⟨e, he⟩ := (levels_error_iff_hasCycle gDiamond (by decide)).2 hcyc
  rw [show gDiamond.levels = .ok [["a"], ["b", "c"], ["d"]] from rfl] at he
  exact Except.noConfusion he

/-- Witness for C1 at the diamond graph. -/
theorem C1_witness :
    gDiamond.WF ∧ gDiamond.Acyclic
      ∧ ∃ lvls : List (List String), gDiamond.levels = .ok lvls
        ∧ (∀ n ∈ gDiamond.node_ids, ∃! k : Fin lvls.length, n ∈ lvls.get k) := by
  refine ⟨by decide, gDiamond_acyclic, ?_⟩
  obtain ⟨lvls, hok, hpart, -, -⟩ :=
    C1_levels_partition_order_maximality gDiamond (by decide) gDiamond_acyclic
  exact ⟨lvls, hok, hpart⟩

/-- Witness for C2 at the two-node cycle. -/
theorem C2_witness : gCyc.WF ∧ gCyc.HasCycle := by
  refine ⟨by decide, ?_⟩
  refine (C2_levels_error_iff_cycle gCyc (by decide)).1 ?_
  exact ⟨"Graph contains a cycle (visited 0/2 nodes)", rfl⟩

/-! ## Claim C4: add_node re-registration -/

/-- a→b, used to exhibit `add_node`'s `setdefault` behaviour. -/
def gAB : Graph :=
  orEmpty (((Graph.empty.add_node (mkN "a")).add_node (mkN "b")).add_edge "a" "b")

/-- C4 counterexample: re-registering id "a" does NOT reset its adjacency
entries — the edge a→b survives in both adjacency directions, contradicting
the claim that both entries are reset to the empty set. -/
theorem C4_counterexample :
    (gAB.add_node (mkN "a")).succs "a" = ["b"]
      ∧ (gAB.add_node (mkN "a")).predecessors "b" = ["a"]
      ∧ ¬((gAB.add_node (mkN "a")).succs "a" = []) := by
  refine ⟨by decide, by decide, by decide⟩

theorem mem_dictKeys_setdefault {α : Type} (d : List (String × α)) (k : String) (v : α) :
    k ∈ dictKeys (dictSetdefault d k v) := by
  by_cases h : k ∈ dictKeys d
  · rw [dictSetdefault_of_mem d k v h]
    exact h
  · rw [dictSetdefault_of_not_mem d k v h]
    simp [dictKeys]

theorem dictSetdefault_idem {α : Type} (d : List (String × α)) (k : String) (v : α) :
    dictSetdefault (dictSetdefault d k v) k v = dictSetdefault d k v :=
  dictSetdefault_of_mem _ k v (mem_dictKeys_setdefault d k v)

/-- C4 amended: `add_node` replaces the stored node for its id; the adjacency
entries are `setdefault`-ed — an already-present entry (with whatever edges it
holds) is left unchanged, and only a fresh id gets an empty entry; the
operation is idempotent (for every id, fresh or not). -/
theorem C4_add_node_setdefault (g : Graph) (n : PNode) :
    (g.add_node n).nodes = dictSet g.nodes n.node_id n
    ∧ (n.node_id ∈ dictKeys g.edges → (g.add_node n).edges = g.edges)
    ∧ (n.node_id ∉ dictKeys g.edges → (g.add_node n).edges = g.edges ++ [(n.node_id, [])])
    ∧ (n.node_id ∈ dictKeys g.reverse → (g.add_node n).reverse = g.reverse)
    ∧ (n.node_id ∉ dictKeys g.reverse →
        (g.add_node n).reverse = g.reverse ++ [(n.node_id, [])])
    ∧ (g.add_node n).add_node n = g.add_node n := by
  refine ⟨rfl, ?_, ?_, ?_, ?_, ?_⟩
  · intro h
    show dictSetdefault g.edges n.node_id [] = g.edges
    exact dictSetdefault_of_mem _ _ _ h
  · intro h
    show dictSetdefault g.edges n.node_id [] = g.edges ++ [(n.node_id, [])]
    exact dictSetdefault_of_not_mem _ _ _ h
  · intro h
    show dictSetdefault g.reverse n.node_id [] = g.reverse
    exact dictSetdefault_of_mem _ _ _ h
  · intro h
    show dictSetdefault g.reverse n.node_id [] = g.reverse ++ [(n.node_id, [])]
    exact dictSetdefault_of_not_mem _ _ _ h
  · show (g.add_node n).add_node n = g.add_node n
    simp only [Graph.add_node]
    rw [dictSet_set_self, dictSetdefault_idem, dictSetdefault_idem]

/-- Witness for the amended C4 at a graph where "a" has an edge. -/
theorem C4_witness :
    ("a" ∈ dictKeys gAB.edges) ∧ (gAB.add_node (mkN "a")).edges = gAB.edges := by
  refine ⟨by decide, (C4_add_node_setdefault gAB (mkN "a")).2.1 (by decide)⟩

/-! ## Claim C5: Node.execute contract -/

theorem dictGet_setdefault_self {α : Type} (d : List (String × α)) (k : String) (v : α) :
    dictGet (dictSetdefault d k v) k = some ((dictGet d k).getD v) := by
  cases hget : dictGet d k with
  | some w =>
    have hmem : k ∈ dictKeys d := (dictGet_isSome_iff_mem_keys d k).1 (by rw [hget]; rfl)
    rw [dictSetdefault_of_mem d k v hmem, hget]
    rfl
  | none =>
    have hnm : k ∉ dictKeys d := by
      intro hc
      have := (dictGet_isSome_iff_mem_keys d k).2 hc
      rw [hget] at this
      exact Bool.noConfusion this
    rw [dictSetdefault_of_not_mem d k v hnm]
    show dictGet (d ++ [(k, v)]) k = some v
    clear hget
    induction d with
    | nil => simp [dictGet]
    | cons p rest ih =>
      obtain ⟨k₀, v₀⟩ := p
      have h₀ : ¬k₀ = k := by
        intro hc
        exact hnm (by simp [dictKeys, hc])
      have hnm' : k ∉ dictKeys rest := by
        intro hc
        exact hnm (by
          show k ∈ dictKeys ((k₀, v₀) :: rest)
          simp only [dictKeys, List.map_cons, List.mem_cons]
          exact Or.inr hc)
      simp only [List.cons_append, dictGet, h₀, if_false]
      exact ih hnm'

theorem dictGet_setdefault_of_some {α : Type} {d : List (String × α)} {k : String} {w : α}
    (v : α) (h : dictGet d k = some w) : dictGet (dictSetdefault d k v) k = some w := by
  rw [dictGet_setdefault_self, h]
  rfl

/-- C5: `Node.execute` always returns a `NodeResult` (it is a total
function); a fault raised by `run` is converted into a FAILURE result whose
error is the fault message (with empty outputs); a normal result passes
through unchanged except for metadata; and `metadata["duration_ms"]` is
always present afterwards — stamped with the measured elapsed milliseconds
rounded to one decimal unless `run` already set it, in which case the
existing value is kept. -/
theorem C5_execute_contract (outcome : Except String NodeResult) (elapsed : Rat) :
    (∀ e, outcome = .error e →
        (Node.execute outcome elapsed).status = .failure
          ∧ (Node.execute outcome elapsed).error = some e
          ∧ (Node.execute outcome elapsed).outputs = []
          ∧ dictGet (Node.execute outcome elapsed).metadata "duration_ms"
              = some (.mNum (round1 elapsed)))
    ∧ (∀ r, outcome = .ok r →
        (Node.execute outcome elapsed).status = r.status
          ∧ (Node.execute outcome elapsed).error = r.error
          ∧ (Node.execute outcome elapsed).outputs = r.outputs
          ∧ (dictGet r.metadata "duration_ms" = none →
              dictGet (Node.execute outcome elapsed).metadata "duration_ms"
                = some (.mNum (round1 elapsed)))
          ∧ (∀ v, dictGet r.metadata "duration_ms" = some v →
              dictGet (Node.execute outcome elapsed).metadata "duration_ms" = some v))
    ∧ (dictGet (Node.execute outcome elapsed).metadata "duration_ms").isSome := by
  refine ⟨?_, ?_, ?_⟩
  · rintro e rfl
    refine ⟨rfl, rfl, rfl, ?_⟩
    show dictGet (dictSetdefault ([] : List (String × MVal)) "duration_ms"
      (MVal.mNum (round1 elapsed))) "duration_ms" = some (MVal.mNum (round1 elapsed))
    rw [dictGet_setdefault_self]
    rfl
  · rintro r rfl
    refine ⟨rfl, rfl, rfl, ?_, ?_⟩
    · intro hnone
      show dictGet (dictSetdefault r.metadata "duration_ms"
        (MVal.mNum (round1 elapsed))) "duration_ms" = some (MVal.mNum (round1 elapsed))
      rw [dictGet_setdefault_self, hnone]
      rfl
    · intro v hv
      exact dictGet_setdefault_of_some _ hv
  · cases outcome with
    | error e =>
      show (dictGet (dictSetdefault ([] : List (String × MVal)) "duration_ms"
        (MVal.mNum (round1 elapsed))) "duration_ms").isSome = true
      rw [dictGet_setdefault_self]
      rfl
    | ok r =>
      show (dictGet (dictSetdefault r.metadata "duration_ms"
        (MVal.mNum (round1 elapsed))) "duration_ms").isSome = true
      rw [dictGet_setdefault_self]
      rfl

/-- Witness for C5: a raised fault at elapsed 12.34 ms, and a run that
pre-set its own duration. -/
theorem C5_witness :
    ((Except.error "boom" : Except String NodeResult) = .error "boom"
      ∧ (Node.execute (.error "boom") (617/50)).status = .failure
      ∧ (Node.execute (.error "boom") (617/50)).error = some "boom")
    ∧ dictGet (Node.execute
        (.ok { status := .success, metadata := [("duration_ms", .mNum 7)] })
        (617/50)).metadata "duration_ms" = some (.mNum 7) := by
  have h1 := (C5_execute_contract (.error "boom") (617/50)).1 "boom" rfl
  have h2 := ((C5_execute_contract
    (.ok { status := .success, metadata := [("duration_ms", .mNum 7)] }) (617/50)).2.1
    { status := .success, metadata := [("duration_ms", .mNum 7)] } rfl).2.2.2.2
  exact ⟨⟨rfl, h1.1, h1.2.1⟩, h2 (.mNum 7) rfl⟩

/-! ## Claim C6: merge/get and namespace isolation -/

theorem dictGet_split {m : List (String × Val)} {k : String} {v : Val}
    (hnd : (dictKeys m).Nodup) (h : dictGet m k = some v) :
    ∃ pre post, m = pre ++ (k, v) :: post ∧ ∀ q ∈ post, q.1 ≠ k := by
  induction m with
  | nil => exact Option.noConfusion h
  | cons p rest ih =>
    obtain ⟨k₀, v₀⟩ := p
    have hnd' : (dictKeys rest).Nodup := by
      simp only [dictKeys, List.map_cons, List.nodup_cons] at hnd
      exact hnd.2
    have hk₀ : k₀ ∉ dictKeys rest := by
      simp only [dictKeys, List.map_cons, List.nodup_cons] at hnd
      exact hnd.1
    by_cases h₀ : k₀ = k
    · subst h₀
      simp [dictGet] at h
      subst h
      refine ⟨[], rest, rfl, ?_⟩
      intro q hq hqk
      exact hk₀ (hqk ▸ List.mem_map_of_mem Prod.fst hq)
    · simp only [dictGet, h₀, if_false] at h
      obtain ⟨pre, post, heq, hpost⟩ := ih hnd' h
      exact ⟨(k₀, v₀) :: pre, post, by rw [heq]; rfl, hpost⟩

/-- C6 counterexample: the claim as stated is false — with a dot inside a
namespace, merges under the distinct namespaces "a" and "a.b" write the same
key "a.b.c": the value stored under namespace "a" (key "b.c") is clobbered
by a later merge under namespace "a.b". -/
theorem C6_counterexample :
    ("a" : String) ≠ "a.b"
    ∧ (Context.empty.merge "a" [("b.c", .vInt 1)]).get "a.b.c" = .vInt 1
    ∧ ((Context.empty.merge "a" [("b.c", .vInt 1)]).merge "a.b" [("c", .vInt 2)]).get "a.b.c"
        = .vInt 2 := by
  refine ⟨by decide, by decide, by decide⟩

/-- C6 amended: `merge(ns, m)` followed by `get("ns.k")` returns the merged
value; and merging into two distinct namespaces never cross-contaminates
provided the namespaces themselves contain no dot (the counterexample shows
a dotted namespace can collide with another namespace's dotted key). -/
theorem C6_merge_get_isolation :
    (∀ (c : Context) (ns k : String) (m : List (String × Val)) (v : Val) (dflt : Val),
      (dictKeys m).Nodup → dictGet m k = some v →
      (c.merge ns m).get (nsKey ns k) dflt = v)
    ∧ (∀ (c : Context) (ns₁ ns₂ k₁ : String) (m₂ : List (String × Val)) (dflt : Val),
      '.' ∉ ns₁.data → '.' ∉ ns₂.data → ns₁ ≠ ns₂ →
      (c.merge ns₂ m₂).get (nsKey ns₁ k₁) dflt = c.get (nsKey ns₁ k₁) dflt) := by
  constructor
  · intro c ns k m v dflt hnd h
    obtain ⟨pre, post, heq, hpost⟩ := dictGet_split hnd h
    exact Context.get_merge_last c ns m k v dflt ⟨pre, post, heq, hpost⟩
  · intro c ns₁ ns₂ k₁ m₂ dflt h₁ h₂ hne
    apply Context.get_merge_ne
    intro p hp hkey
    obtain ⟨hns, -⟩ := nsKey_inj_of_dotfree h₂ h₁ hkey
    exact hne (hns.symm)

/-- Witness for the amended C6. -/
theorem C6_witness :
    (Context.empty.merge "x" [("k", .vInt 5)]).get "x.k" = .vInt 5
    ∧ ((Context.empty.merge "x" [("k", .vInt 5)]).merge "y" [("k", .vInt 9)]).get "x.k"
        = .vInt 5 := by
  constructor
  · exact C6_merge_get_isolation.1 Context.empty "x" "k" [("k", .vInt 5)] (.vInt 5)
      .vNone (by decide) (by decide)
  · have := C6_merge_get_isolation.2 (Context.empty.merge "x" [("k", .vInt 5)])
      "x" "y" "k" [("k", .vInt 9)] .vNone (by decide) (by decide) (by decide)
    rw [show nsKey "x" "k" = "x.k" from rfl] at this
    rw [this]
    exact C6_merge_get_isolation.1 Context.empty "x" "k" [("k", .vInt 5)] (.vInt 5)
      .vNone (by decide) (by decide)

/-! ## Claim C7: template substitution -/

/-- C7: `format_template` leaves a `{key}` occurrence unchanged when the key
(the verbatim inner text, dots included) is absent from the context, and
replaces it with the stringified stored value when present; substitution is
a single left-to-right pass — the brace-free text before the hole passes
through unchanged, the replacement text is emitted verbatim (never itself
rescanned), and scanning resumes right after the closing brace. -/
theorem C7_format_template (c : Context) (pre key suf : List Char)
    (hpre : ∀ ch ∈ pre, notBrace ch) (hne : key ≠ []) (hkey : ∀ ch ∈ key, notBrace ch) :
    (dictGet c.data (String.mk key) = none →
      c.format_template (String.mk (pre ++ '{' :: (key ++ '}' :: suf)))
        = String.mk (pre ++ '{' :: (key ++ '}' :: scanTemplate c.data suf)))
    ∧ (∀ v, dictGet c.data (String.mk key) = some v →
      c.format_template (String.mk (pre ++ '{' :: (key ++ '}' :: suf)))
        = String.mk (pre ++ (pyStr v).data ++ scanTemplate c.data suf)) := by
  have hbase : scanTemplate c.data (pre ++ '{' :: (key ++ '}' :: suf))
      = pre ++ (renderKey c.data key ++ scanTemplate c.data suf) := by
    rw [scanTemplate_append_pass c.data pre _ hpre, scanTemplate_hole c.data key suf hne hkey]
  constructor
  · intro hnone
    show String.mk (scanTemplate c.data (pre ++ '{' :: (key ++ '}' :: suf))) = _
    rw [hbase]
    unfold renderKey
    rw [hnone]
    simp
  · intro v hv
    show String.mk (scanTemplate c.data (pre ++ '{' :: (key ++ '}' :: suf))) = _
    rw [hbase]
    unfold renderKey
    rw [hv]
    simp

/-- Context for the C7 witness: "x" holds a value that itself looks like a
template hole, "a.b" is a dotted key. -/
def cW : Context :=
  { data := [("x", .vStr (String.mk ['{', 'y', '}'])), ("y", .vStr "z"), ("a.b", .vInt 7)] }

/-- Witness for C7: a present key whose value contains braces is substituted
verbatim (never rescanned — "y" is NOT resolved to "z"), a dotted key is
substituted, and a missing key is left unchanged. -/
theorem C7_witness :
    cW.format_template (String.mk ['{', 'x', '}']) = String.mk ['{', 'y', '}']
    ∧ cW.format_template (String.mk ['{', 'a', '.', 'b', '}']) = "7"
    ∧ cW.format_template (String.mk ['{', 'q', '}']) = String.mk ['{', 'q', '}'] := by
  refine ⟨?_, ?_, ?_⟩
  · have := (C7_format_template cW [] ['x'] [] (by decide) (by decide) (by decide)).2
      (.vStr (String.mk ['{', 'y', '}'])) (by decide)
    simpa [scanTemplate_nil, pyStr] using this
  · have := (C7_format_template cW [] ['a', '.', 'b'] [] (by decide) (by decide)
      (by decide)).2 (.vInt 7) (by decide)
    simpa [scanTemplate_nil, pyStr] using this
  · have := (C7_format_template cW [] ['q'] [] (by decide) (by decide) (by decide)).1
      (by decide)
    simpa [scanTemplate_nil] using this

/-! ## Control nodes (src/orchestrator/nodes/control.py) -/

/-- `GateNode.run` (control.py lines 31-38). -/
def GateNode.run (pred : Context → Bool) (reason : String) (ctx : Context) : NodeResult :=
  if pred ctx then
    { status := .success, outputs := [("gate_open", .vBool true)] }
  else
    { status := .skipped, outputs := [("gate_open", .vBool false)], error := some reason }

structure RetryNode where
  node_id : String
  max_retries : Nat := 3
  pass_key : String := "passed"

/-- A Python dict literal with spread: later entries override earlier keys. -/
def dictUpdate (base upd : List (String × Val)) : List (String × Val) :=
  upd.foldl (fun acc p => dictSet acc p.1 p.2) base

/-- The `": <last verify error>"` suffix: appended only when the last verify
result exists and carries a truthy (non-empty) error string. -/
def errSuffix : Option String → String
  | some e => if e ≠ "" then ": " ++ e else ""
  | none => ""

/-- The FAILURE result produced when all retries are exhausted. -/
def retryFailResult (log : List AttemptEntry) (last : Option NodeResult) : NodeResult :=
  { status := .failure
    outputs := [("passed", .vBool false), ("attempts", .vInt log.length)]
    error := some ("Verification failed after " ++ toString log.length ++ " attempts"
      ++ (match last with
          | some v => errSuffix v.error
          | none => ""))
    metadata := [("attempts", .mAttempts log)] }

/-- The body of `RetryNode.run` (control.py lines 66-102).  The two child
nodes are abstracted as their `execute` outcome streams `vs`/`fs` (call
number ↦ result; `execute` is total by its contract): the verify node has
been called `log.length` times so far and the fix node `fc` times.
`r` is the number of remaining loop iterations, `attempt` the 1-based
attempt counter.  Returns the final context, the result, the attempts log
and the number of fix-node invocations. -/
def retryLoop (rn : RetryNode) (vs fs : Nat → NodeResult) :
    Nat → Nat → Context → List AttemptEntry → Option NodeResult → Nat →
    Context × NodeResult × List AttemptEntry × Nat
  | 0, _, ctx, log, last, fc => (ctx, retryFailResult log last, log, fc)
  | r + 1, attempt, ctx, log, _, fc =>
    let v := vs log.length
    let ctx1 := ctx.merge (rn.node_id ++ ".verify") v.outputs
    let passed := dictGetD v.outputs rn.pass_key (.vBool false)
    let log1 := log ++ [⟨attempt, passed, v.error⟩]
    if pyTruthy passed then
      (ctx1,
        { status := .success
          outputs := dictUpdate
            [("passed", .vBool true), ("attempts", .vInt log1.length)] v.outputs
          metadata := [("attempts", .mAttempts log1)] },
        log1, fc)
    else
      match r with
      | 0 => (ctx1, retryFailResult log1 (some v), log1, fc)
      | r' + 1 =>
        let f := fs fc
        let ctx2 := ctx1.merge (rn.node_id ++ ".fix") f.outputs
        retryLoop rn vs fs (r' + 1) (attempt + 1) ctx2 log1 (some v) (fc + 1)

def RetryNode.run (rn : RetryNode) (vs fs : Nat → NodeResult) (ctx : Context) :
    Context × NodeResult × List AttemptEntry × Nat :=
  retryLoop rn vs fs rn.max_retries 1 ctx [] none 0

theorem retryLoop_allfail (rn : RetryNode) (vs fs : Nat → NodeResult)
    (hfail : ∀ i, ¬pyTruthy (dictGetD (vs i).outputs rn.pass_key (.vBool false))) :
    ∀ (r : Nat), 1 ≤ r → ∀ (attempt : Nat) (ctx : Context) (log : List AttemptEntry)
      (last : Option NodeResult) (fc : Nat),
    ∃ (ctx' : Context) (log' : List AttemptEntry),
      retryLoop rn vs fs r attempt ctx log last fc
        = (ctx', retryFailResult log' (some (vs (log.length + r - 1))), log', fc + (r - 1))
      ∧ log'.length = log.length + r := by
  intro r
  induction r with
  | zero => intro h; omega
  | succ r' ih =>
    intro _ attempt ctx log last fc
    have hpass := hfail log.length
    rw [Bool.not_eq_true] at hpass
    cases r' with
    | zero =>
      refine ⟨ctx.merge (rn.node_id ++ ".verify") (vs log.length).outputs,
        log ++ [⟨attempt, dictGetD (vs log.length).outputs rn.pass_key (.vBool false),
          (vs log.length).error⟩], ?_, ?_⟩
      · show retryLoop rn vs fs 1 attempt ctx log last fc = _
        rw [retryLoop]
        rw [if_neg (by rw [hpass]; exact Bool.false_ne_true)]
        have hidx : log.length + 1 - 1 = log.length := by omega
        rw [hidx]
        simp
      · simp
    | succ r'' =>
      set v := vs log.length with hv
      set passed := dictGetD v.outputs rn.pass_key (.vBool false) with hpassed
      set log1 := log ++ [(⟨attempt, passed, v.error⟩ : AttemptEntry)] with hlog1
      set ctx2 := (ctx.merge (rn.node_id ++ ".verify") v.outputs).merge
        (rn.node_id ++ ".fix") (fs fc).outputs with hctx2
      obtain ⟨ctx', log', heq, hlen⟩ :=
        ih (by omega) (attempt + 1) ctx2 log1 (some v) (fc + 1)
      refine ⟨ctx', log', ?_, ?_⟩
      · show retryLoop rn vs fs (r'' + 1 + 1) attempt ctx log last fc = _
        rw [retryLoop]
        rw [if_neg (by rw [← hpassed, hpass]; exact Bool.false_ne_true)]
        show retryLoop rn vs fs (r'' + 1) (attempt + 1) ctx2 log1 (some v) (fc + 1) = _
        rw [heq]
        have h1 : log1.length + (r'' + 1) - 1 = log.length + (r'' + 1 + 1) - 1 := by
          rw [hlog1]
          simp only [List.length_append, List.length_cons, List.length_nil]
          omega
        have h2 : fc + 1 + (r'' + 1 - 1) = fc + (r'' + 1 + 1 - 1) := by omega
        rw [h1, h2]
      · rw [hlen, hlog1]
        simp only [List.length_append, List.length_cons, List.length_nil]
        omega

/-- C8: for a RetryNode with `max_retries = N ≥ 1` whose verify node never
produces a truthy `pass_key` value, `run` returns FAILURE with outputs
`{passed: false, attempts: N}`, an attempts log of exactly N entries in the
metadata, error `"Verification failed after N attempts"` with
`": <last verify error>"` appended exactly when the last verify result
carries a truthy error, and the fix node is executed exactly N-1 times. -/
theorem C8_retry_exhaustion (rn : RetryNode) (vs fs : Nat → NodeResult) (ctx : Context)
    (hN : 1 ≤ rn.max_retries)
    (hfail : ∀ i, ¬pyTruthy (dictGetD (vs i).outputs rn.pass_key (.vBool false))) :
    ∃ (ctx' : Context) (log : List AttemptEntry),
      RetryNode.run rn vs fs ctx
        = (ctx',
           { status := .failure
             outputs := [("passed", .vBool false), ("attempts", .vInt rn.max_retries)]
             error := some ("Verification failed after " ++ toString rn.max_retries
               ++ " attempts" ++ errSuffix (vs (rn.max_retries - 1)).error)
             metadata := [("attempts", .mAttempts log)] },
           log, rn.max_retries - 1)
      ∧ log.length = rn.max_retries := by
  obtain ⟨ctx', log', heq, hlen⟩ :=
    retryLoop_allfail rn vs fs hfail rn.max_retries hN 1 ctx [] none 0
  simp only [List.length_nil, Nat.zero_add] at heq hlen
  refine ⟨ctx', log', ?_, hlen⟩
  show retryLoop rn vs fs rn.max_retries 1 ctx [] none 0 = _
  rw [heq]
  unfold retryFailResult
  rw [hlen]

/-- RetryNode of the C8 witness: Scenario E with `max_retries = 3`. -/
def rnW : RetryNode := { node_id := "retry", max_retries := 3, pass_key := "passed" }

def vsW : Nat → NodeResult := fun _ =>
  { status := .failure, outputs := [("passed", .vBool false)], error := some "tests failed" }

def fsW : Nat → NodeResult := fun _ => { status := .success }

/-- Witness for C8 (Scenario E): 3 attempts, fix invoked exactly twice,
error carries the last verify error. -/
theorem C8_witness :
    ∃ (ctx' : Context) (log : List AttemptEntry),
      RetryNode.run rnW vsW fsW Context.empty
        = (ctx',
           { status := .failure
             outputs := [("passed", .vBool false), ("attempts", .vInt 3)]
             error := some "Verification failed after 3 attempts: tests failed"
             metadata := [("attempts", .mAttempts log)] },
           log, 2)
      ∧ log.length = 3 := by
  obtain ⟨ctx', log, heq, hlen⟩ :=
    C8_retry_exhaustion rnW vsW fsW Context.empty (by decide)
      (by intro i; simp [vsW, rnW, dictGetD, dictGet, pyTruthy])
  exact ⟨ctx', log, heq, hlen⟩

/-! ## Runner (src/orchestrator/core/runner.py)

The level loop is embedded as deterministic state threading: within a level
the gathered tasks are executed in level order (one admissible schedule of
`asyncio.gather`; the per-node report entries and the merges are keyed by
distinct node ids, so the report below does not depend on the schedule).
The run additionally returns the list of node ids whose `execute` was
invoked, in invocation order, and the total wall-clock duration is
abstracted (left at its initial value). -/

structure RunReport where
  results : List (String × NodeResult) := []
  duration_ms : Rat := 0

/-- `success`: no FAILURE result (SKIPPED is non-blocking). -/
def RunReport.success (r : RunReport) : Bool :=
  r.results.all fun p => decide (p.2.status = .success ∨ p.2.status = .skipped)

def RunReport.failed_nodes (r : RunReport) : List String :=
  (r.results.filter fun p => decide (p.2.status = .failure)).map Prod.fst

def statusStr : NodeStatus → String
  | .success => "success"
  | .failure => "failure"
  | .skipped => "skipped"

/-- `summary()`: total, per-status counts, duration, overall success. -/
def RunReport.summary (r : RunReport) : Nat × List (String × Nat) × Rat × Bool :=
  (r.results.length,
   r.results.foldl
     (fun acc p => dictSet acc (statusStr p.2.status)
       (dictGetD acc (statusStr p.2.status) 0 + 1)) [],
   r.duration_ms,
   r.success)

structure Runner where
  fail_fast : Bool := false
  dry_run : Bool := false

/-- `Runner._should_skip` (runner.py lines 91-97): some direct predecessor
has a recorded FAILURE result. -/
def Runner.shouldSkip (g : Graph) (node_id : String) (report : RunReport) : Bool :=
  (g.predecessors node_id).any fun p =>
    match dictGet report.results p with
    | some r => decide (r.status = .failure)
    | none => false

def dryResult (i : Nat) : NodeResult :=
  { status := .skipped, metadata := [("dry_run", .mBool true), ("level", .mInt i)] }

def skipResult (i : Nat) : NodeResult :=
  { status := .skipped, error := some "upstream dependency failed"
    metadata := [("level", .mInt i)] }

/-- `Runner._run_node` (runner.py lines 99-116): execute the node, stamp the
level into the metadata via `setdefault`, merge the outputs into the context
under the node id on SUCCESS, and record the result. -/
def runNode (g : Graph) (level_idx : Nat) (st : Context × RunReport × List String)
    (node_id : String) : Context × RunReport × List String :=
  let res0 := g.get_node node_id st.1
  let res := { res0 with
    metadata := dictSetdefault res0.metadata "level" (.mInt level_idx) }
  let ctx' := if res.status = .success then st.1.merge node_id res.outputs else st.1
  (ctx', { st.2.1 with results := dictSet st.2.1.results node_id res }, st.2.2 ++ [node_id])

/-- First pass over a level: record upstream-failure skips immediately,
collect the remaining ids as tasks. -/
def collectLevel (g : Graph) (level : List String) (level_idx : Nat) (report : RunReport) :
    RunReport × List String :=
  level.foldl
    (fun st nid =>
      if Runner.shouldSkip g nid st.1 then
        ({ st.1 with results := dictSet st.1.results nid (skipResult level_idx) }, st.2)
      else (st.1, st.2 ++ [nid]))
    (report, [])

def runLevels (r : Runner) (g : Graph) :
    List (List String) → Nat → Context → RunReport → List String →
    Context × RunReport × List String
  | [], _, ctx, report, inv => (ctx, report, inv)
  | level :: rest, i, ctx, report, inv =>
    if r.dry_run then
      let report' := level.foldl
        (fun rep nid => { rep with results := dictSet rep.results nid (dryResult i) }) report
      runLevels r g rest (i + 1) ctx report' inv
    else
      let st1 := collectLevel g level i report
      let st2 := st1.2.foldl (runNode g i) (ctx, st1.1, inv)
      if r.fail_fast && level.any (fun nid =>
          decide ((dictGetD st2.2.1.results nid { status := .success }).status = .failure))
      then st2
      else runLevels r g rest (i + 1) st2.1 st2.2.1 st2.2.2

/-- `Runner.run` (runner.py lines 50-89): compute levels once (propagating
`CycleError`), then process the levels. -/
def Runner.run (r : Runner) (g : Graph) (ctx : Context) :
    Except String (Context × RunReport × List String) :=
  match g.levels with
  | .error e => .error e
  | .ok lvls => .ok (runLevels r g lvls 0 ctx {} [])

/-! ## Claim C9: failure, skip, independent sibling -/

/-- Scenario C graph: a (fails) → b; c independent.  Written as the record
that `add_node a; add_node b; add_node c; add_edge a b` produces (see
`gC9_build` for that equality at a concrete instance). -/
def gC9 (errA : Option String) (outC : List (String × Val)) (behB : NodeBeh) : Graph :=
  { nodes := [("a", ⟨"a", fun _ => { status := .failure, error := errA }⟩),
              ("b", ⟨"b", behB⟩),
              ("c", ⟨"c", fun _ => { status := .success, outputs := outC }⟩)]
    edges := [("a", ["b"]), ("b", []), ("c", [])]
    reverse := [("a", []), ("b", ["a"]), ("c", [])] }

/-- The record above is exactly what the graph-building API produces. -/
theorem gC9_build :
    (((Graph.empty.add_node ⟨"a", fun _ => { status := .failure, error := some "boom" }⟩
      ).add_node ⟨"b", succBeh⟩).add_node
        ⟨"c", fun _ => { status := .success, outputs := [("k", .vInt 1)] }⟩).add_edge "a" "b"
      = .ok (gC9 (some "boom") [("k", .vInt 1)] succBeh) := rfl

/-- C9: in a non-dry-run over the Scenario C graph (a fails with any error,
edge a→b, c independent and successful, b with ANY behaviour), the report
records a as FAILURE, b as SKIPPED with error "upstream dependency failed"
and b's execute is never invoked (the invocation list is exactly
["a", "c"]), c as SUCCESS with its outputs merged, and the overall report
success is false. -/
theorem C9_runner_failure_skip (errA : Option String) (outC : List (String × Val))
    (behB : NodeBeh) (ctx0 : Context) :
    ∃ rep : RunReport,
      Runner.run { fail_fast := false, dry_run := false } (gC9 errA outC behB) ctx0
        = .ok (ctx0.merge "c" outC, rep, ["a", "c"])
      ∧ dictGet rep.results "a"
          = some { status := .failure, error := errA, metadata := [("level", .mInt 0)] }
      ∧ dictGet rep.results "b"
          = some { status := .skipped, error := some "upstream dependency failed",
                   metadata := [("level", .mInt 1)] }
      ∧ dictGet rep.results "c"
          = some { status := .success, outputs := outC, metadata := [("level", .mInt 0)] }
      ∧ rep.success = false
      ∧ "b" ∉ (["a", "c"] : List String) := by
  refine ⟨{ results := [
      ("a", { status := .failure, error := errA, metadata := [("level", .mInt 0)] }),
      ("c", { status := .success, outputs := outC, metadata := [("level", .mInt 0)] }),
      ("b", { status := .skipped, error := some "upstream dependency failed",
              metadata := [("level", .mInt 1)] })] }, rfl, rfl, rfl, rfl, rfl, by decide⟩

/-! ## Claim C10: skips do not propagate transitively -/

/-- Chain a→b→c with a failing, written as the record the building API
produces (see `gC10_build`). -/
def gC10 (errA : Option String) (behB : NodeBeh) (outC : List (String × Val)) : Graph :=
  { nodes := [("a", ⟨"a", fun _ => { status := .failure, error := errA }⟩),
              ("b", ⟨"b", behB⟩),
              ("c", ⟨"c", fun _ => { status := .success, outputs := outC }⟩)]
    edges := [("a", ["b"]), ("b", ["c"]), ("c", [])]
    reverse := [("a", []), ("b", ["a"]), ("c", ["b"])] }

theorem gC10_build :
    (orEmpty ((((Graph.empty.add_node
        ⟨"a", fun _ => { status := .failure, error := some "boom" }⟩).add_node
        ⟨"b", succBeh⟩).add_node
        ⟨"c", fun _ => { status := .success, outputs := [("k", .vInt 1)] }⟩).add_edge
          "a" "b")).add_edge "b" "c"
      = .ok (gC10 (some "boom") succBeh [("k", .vInt 1)]) := rfl

/-- Gate g → d, with a closed-false gate predicate. -/
def gGate (reason : String) (resD : NodeResult) : Graph :=
  { nodes := [("g", ⟨"g", GateNode.run (fun _ => false) reason⟩),
              ("d", ⟨"d", fun _ => resD⟩)]
    edges := [("g", ["d"]), ("d", [])]
    reverse := [("g", []), ("d", ["g"])] }

theorem gGate_build (reason : String) (resD : NodeResult) :
    ((Graph.empty.add_node ⟨"g", GateNode.run (fun _ => false) reason⟩).add_node
      ⟨"d", fun _ => resD⟩).add_edge "g" "d" = .ok (gGate reason resD) := rfl

def stampLevel (i : Nat) (res : NodeResult) : NodeResult :=
  { res with metadata := dictSetdefault res.metadata "level" (.mInt i) }

set_option maxHeartbeats 1600000 in
/-- C10 (implicit): the Runner skips a node iff some DIRECT predecessor's
recorded result is FAILURE — SKIPPED is non-blocking, so skips do not
propagate transitively: (i) the skip test in general; (ii) in the chain
a→b→c with a failing, b is recorded SKIPPED but c (whose only direct
predecessor b is SKIPPED, not FAILURE) is still executed normally — the
invocation list is exactly ["a", "c"] and c's outputs are merged; (iii) the
successor of a gate that returned SKIPPED is executed. -/
theorem C10_skip_not_transitive :
    (∀ (g : Graph) (nid : String) (rep : RunReport),
      Runner.shouldSkip g nid rep = true
        ↔ ∃ p ∈ g.predecessors nid,
            ∃ res, dictGet rep.results p = some res ∧ res.status = .failure)
    ∧ (∀ (errA : Option String) (behB : NodeBeh) (outC : List (String × Val))
        (ctx0 : Context),
        Runner.run { fail_fast := false, dry_run := false } (gC10 errA behB outC) ctx0
          = .ok (ctx0.merge "c" outC,
              { results := [
                ("a", { status := .failure, error := errA, metadata := [("level", .mInt 0)] }),
                ("b", { status := .skipped, error := some "upstream dependency failed",
                        metadata := [("level", .mInt 1)] }),
                ("c", { status := .success, outputs := outC,
                        metadata := [("level", .mInt 2)] })] },
              ["a", "c"]))
    ∧ (∀ (reason : String) (resD : NodeResult) (ctx0 : Context),
        Runner.run { fail_fast := false, dry_run := false } (gGate reason resD) ctx0
          = .ok
            ((if (stampLevel 1 resD).status = .success
              then ctx0.merge "d" (stampLevel 1 resD).outputs
              else ctx0),
             { results := [
               ("g", { status := .skipped, outputs := [("gate_open", .vBool false)],
                       error := some reason, metadata := [("level", .mInt 0)] }),
               ("d", stampLevel 1 resD)] },
             ["g", "d"])) := by
  refine ⟨?_, ?_, ?_⟩
  · intro g nid rep
    unfold Runner.shouldSkip
    rw [List.any_eq_true]
    constructor
    · rintro ⟨p, hp, hcond⟩
      cases hget : dictGet rep.results p with
      | none => rw [hget] at hcond; exact Bool.noConfusion hcond
      | some res =>
        rw [hget] at hcond
        simp only [decide_eq_true_eq] at hcond
        exact ⟨p, hp, res, hget, hcond⟩
    · rintro ⟨p, hp, res, hget, hst⟩
      refine ⟨p, hp, ?_⟩
      rw [hget]
      simp [hst]
  · intro errA behB outC ctx0
    rfl
  · intro reason resD ctx0
    rfl

/-! ## Claim C3: merge timing within a level

Cooperative-concurrency event model of one level of `Runner.run`.  Each
gathered task runs `await node.execute(ctx)` and then — in the same task,
with no `await` in between, hence atomically under asyncio's cooperative
scheduler — merges its outputs into the context (runner.py lines 109-113,
`_run_node`).  A task's program is therefore the event sequence
`[execEv id, mergeEv id]`; an admissible schedule of a level is any
interleaving of its task programs (a permutation of all their events that
preserves each task's internal order).  The level barrier
(`await asyncio.gather`) means the full run trace is the concatenation of
the per-level schedules. -/

inductive Ev where
  | execEv (id : String)
  | mergeEv (id : String)
deriving DecidableEq, Repr

def taskProg (id : String) : List Ev :=
  [.execEv id, .mergeEv id]

def levelProgs (ids : List String) : List (List Ev) :=
  ids.map taskProg

/-- `t` is an admissible schedule of the given task programs. -/
def IsSchedule (progs : List (List Ev)) (t : List Ev) : Prop :=
  t.Perm progs.flatten ∧ ∀ p ∈ progs, List.Sublist p t

def isMergeEv : Ev → Bool
  | .mergeEv _ => true
  | _ => false

def isExecEv : Ev → Bool
  | .execEv _ => true
  | _ => false

/-- The claimed property: every context merge of the level happens only
after all of the level's executions have completed. -/
def MergesAfterAllExecs (t : List Ev) : Prop :=
  ∀ (i j : Fin t.length), isMergeEv (t.get i) → isExecEv (t.get j) → (j : Nat) < (i : Nat)

instance (t : List Ev) : Decidable (MergesAfterAllExecs t) := by
  unfold MergesAfterAllExecs
  infer_instance

/-- C3 counterexample: the claim as stated is false — the schedule
[exec a, merge a, exec b, merge b] is admissible for a two-node level (it is
what the code does when a's execute finishes while b is still suspended):
a's merge happens before b's execution completes, so the merges do NOT all
happen after all of the level's executions. -/
theorem C3_counterexample :
    ¬(∀ t, IsSchedule (levelProgs ["a", "b"]) t → MergesAfterAllExecs t) := by
  intro h
  have := h [.execEv "a", .mergeEv "a", .execEv "b", .mergeEv "b"] ⟨by decide, by decide⟩
  exact absurd this (by decide)

theorem pair_sublist_indices {a b : Ev} :
    ∀ {t : List Ev}, List.Sublist [a, b] t →
    ∃ (i j : Fin t.length), (i : Nat) < (j : Nat) ∧ t.get i = a ∧ t.get j = b := by
  intro t
  induction t with
  | nil =>
    intro h
    have := h.length_le
    simp at this
  | cons x t' ih =>
    intro h
    cases h with
    | cons _ h' =>
      obtain ⟨i, j, hij, ha, hb⟩ := ih h'
      refine ⟨⟨i.1 + 1, by simp only [List.length_cons]; omega⟩,
        ⟨j.1 + 1, by simp only [List.length_cons]; omega⟩, ?_, ?_, ?_⟩
      · show i.1 + 1 < j.1 + 1
        omega
      · simpa using ha
      · simpa using hb
    | cons₂ _ h' =>
      have hbmem : b ∈ t' := h'.subset (by simp)
      obtain ⟨⟨j, hj⟩, hbj⟩ := List.mem_iff_get.1 hbmem
      refine ⟨⟨0, by simp only [List.length_cons]; omega⟩,
        ⟨j + 1, by simp only [List.length_cons]; omega⟩, ?_, rfl, ?_⟩
      · show 0 < j + 1
        omega
      · simpa using hbj

/-- C3 amended: under the code's cooperative scheduling, each node's merge
is an atomic step that happens after that node's own execution completes
(but possibly before a sibling of the same level finishes — merges are per
node, not barriered); and all merges of one level occur before every
execution of the following level, so a node never observes a half-applied
merge and the whole level's merges are visible to the next level. -/
theorem C3_merge_after_own_exec_and_level_barrier :
    (∀ (ids : List String) (t : List Ev), IsSchedule (levelProgs ids) t →
      ∀ id ∈ ids, ∃ (i j : Fin t.length), (i : Nat) < (j : Nat)
        ∧ t.get i = .execEv id ∧ t.get j = .mergeEv id)
    ∧ (∀ (ids₁ ids₂ : List String) (t₁ t₂ : List Ev),
        IsSchedule (levelProgs ids₁) t₁ → IsSchedule (levelProgs ids₂) t₂ →
        ∀ n₁ ∈ ids₁, ∀ n₂ ∈ ids₂,
          ∃ (i j : Fin (t₁ ++ t₂).length), (i : Nat) < (j : Nat)
            ∧ (t₁ ++ t₂).get i = .mergeEv n₁ ∧ (t₁ ++ t₂).get j = .execEv n₂) := by
  constructor
  · intro ids t hsched id hid
    have hprog : taskProg id ∈ levelProgs ids := List.mem_map_of_mem taskProg hid
    exact pair_sublist_indices (hsched.2 _ hprog)
  · intro ids₁ ids₂ t₁ t₂ h₁ h₂ n₁ hn₁ n₂ hn₂
    have hm : Ev.mergeEv n₁ ∈ t₁ := by
      rw [h₁.1.mem_iff]
      rw [List.mem_flatten]
      exact ⟨taskProg n₁, List.mem_map_of_mem taskProg hn₁, by simp [taskProg]⟩
    have he : Ev.execEv n₂ ∈ t₂ := by
      rw [h₂.1.mem_iff]
      rw [List.mem_flatten]
      exact ⟨taskProg n₂, List.mem_map_of_mem taskProg hn₂, by simp [taskProg]⟩
    obtain ⟨⟨i, hi⟩, hgi⟩ := List.mem_iff_get.1 hm
    obtain ⟨⟨j, hj⟩, hgj⟩ := List.mem_iff_get.1 he
    refine ⟨⟨i, by rw [List.length_append]; omega⟩,
      ⟨t₁.length + j, by rw [List.length_append]; omega⟩, by simp; omega, ?_, ?_⟩
    · rw [← hgi]
      exact List.get_append_left _ _ _
    · rw [← hgj]
      simp [List.getElem_append_right]

/-- Witness for the amended C3 at a concrete two-node level followed by a
one-node level. -/
theorem C3_witness :
    IsSchedule (levelProgs ["a", "b"])
      [.execEv "a", .mergeEv "a", .execEv "b", .mergeEv "b"]
    ∧ ∃ (i j : Fin ([Ev.execEv "a", Ev.mergeEv "a", Ev.execEv "b", Ev.mergeEv "b"]
          ++ [Ev.execEv "c", Ev.mergeEv "c"]).length),
        (i : Nat) < (j : Nat)
        ∧ ([Ev.execEv "a", Ev.mergeEv "a", Ev.execEv "b", Ev.mergeEv "b"]
            ++ [Ev.execEv "c", Ev.mergeEv "c"]).get i = .mergeEv "a"
        ∧ ([Ev.execEv "a", Ev.mergeEv "a", Ev.execEv "b", Ev.mergeEv "b"]
            ++ [Ev.execEv "c", Ev.mergeEv "c"]).get j = .execEv "c" := by
  refine ⟨⟨by decide, by decide⟩, ?_⟩
  exact C3_merge_after_own_exec_and_level_barrier.2 ["a", "b"] ["c"]
    [.execEv "a", .mergeEv "a", .execEv "b", .mergeEv "b"]
    [.execEv "c", .mergeEv "c"]
    ⟨by decide, by decide⟩ ⟨by decide, by decide⟩
    "a" (by decide) "c" (by decide)

/-- Witness for C9 at a concrete instance of the Scenario C graph. -/
theorem C9_witness :
    ∃ rep : RunReport,
      Runner.run { fail_fast := false, dry_run := false }
        (gC9 (some "boom") [("k", .vInt 1)] succBeh) Context.empty
        = .ok (Context.empty.merge "c" [("k", .vInt 1)], rep, ["a", "c"])
      ∧ rep.success = false := by
  obtain ⟨rep, heq, -, -, -, hsucc, -⟩ :=
    C9_runner_failure_skip (some "boom") [("k", .vInt 1)] succBeh Context.empty
  exact ⟨rep, heq, hsucc⟩

/-- Witness for C10: a closed gate's successor is still executed. -/
theorem C10_witness :
    ∃ st : Context × RunReport × List String,
      Runner.run { fail_fast := false, dry_run := false }
        (gGate "gate closed" { status := .success }) Context.empty = .ok st
      ∧ st.2.2 = ["g", "d"] := by
  have h := C10_skip_not_transitive.2.2 "gate closed" { status := .success } Context.empty
  exact ⟨_, h, rfl⟩

/-! ## Well-formedness is an invariant of the construction API

`WF` (assumed by the C1/C2 theorems) holds for the empty graph and is
preserved by `add_node` and `add_edge`, so it holds for every graph a caller
can build. -/

theorem Graph.WF_empty : Graph.empty.WF := by decide

theorem dictKeys_set_of_not_mem {α : Type} (d : List (String × α)) (k : String) (v : α)
    (h : k ∉ dictKeys d) : dictKeys (dictSet d k v) = dictKeys d ++ [k] := by
  induction d with
  | nil => rfl
  | cons p rest ih =>
    obtain ⟨k₀, v₀⟩ := p
    have h₀ : ¬k₀ = k := by
      intro hc
      exact h (by simp [dictKeys, hc])
    have h' : k ∉ dictKeys rest := by
      intro hc
      apply h
      simp only [dictKeys, List.map_cons, List.mem_cons]
      exact Or.inr hc
    have hih := ih h'
    simp only [dictKeys, List.map_cons] at hih ⊢
    simp only [dictSet, h₀, if_false, List.map_cons]
    rw [hih]
    rfl

theorem dictGet_append_ne {α : Type} (d : List (String × α)) {k k' : String} (v : α)
    (h : k' ≠ k) : dictGet (d ++ [(k, v)]) k' = dictGet d k' := by
  induction d with
  | nil => simp [dictGet, Ne.symm h]
  | cons p rest ih =>
    obtain ⟨k₀, v₀⟩ := p
    by_cases h₀ : k₀ = k' <;> simp [dictGet, h₀, ih]

theorem dictGetD_setdefault_ne {α : Type} (d : List (String × α)) {k k' : String}
    (v dflt : α) (h : k' ≠ k) :
    dictGetD (dictSetdefault d k v) k' dflt = dictGetD d k' dflt := by
  unfold dictSetdefault
  cases hget : dictGet d k with
  | some w => rfl
  | none =>
    unfold dictGetD
    rw [dictGet_append_ne d v h]

theorem dictGetD_setdefault_self {α : Type} (d : List (String × α)) (k : String)
    (v dflt : α) :
    dictGetD (dictSetdefault d k v) k dflt = (dictGet d k).getD v := by
  unfold dictGetD
  rw [dictGet_setdefault_self]
  rfl

/-- `add_node` preserves well-formedness (for both fresh and re-registered
ids). -/
theorem Graph.WF.add_node {g : Graph} (hwf : g.WF) (n : PNode) : (g.add_node n).WF := by
  obtain ⟨hnd, hek, hrk, hee, hre, hcons⟩ := hwf
  by_cases hmem : n.node_id ∈ dictKeys g.nodes
  · -- re-registration: all keys and adjacency entries unchanged
    have hke : n.node_id ∈ dictKeys g.edges := by rw [hek]; exact hmem
    have hkr : n.node_id ∈ dictKeys g.reverse := by rw [hrk]; exact hmem
    have he : (g.add_node n).edges = g.edges := dictSetdefault_of_mem _ _ _ hke
    have hr : (g.add_node n).reverse = g.reverse := dictSetdefault_of_mem _ _ _ hkr
    have hk : dictKeys (g.add_node n).nodes = dictKeys g.nodes :=
      dictKeys_set_of_mem _ _ _ hmem
    refine ⟨by rw [hk]; exact hnd, by rw [he, hk]; exact hek, by rw [hr, hk]; exact hrk,
      ?_, ?_, ?_⟩
    · rw [he]
      intro p hp
      refine ⟨(hee p hp).1, fun x hx => ?_⟩
      rw [hk]
      exact (hee p hp).2 x hx
    · rw [hr]
      intro p hp
      refine ⟨(hre p hp).1, fun x hx => ?_⟩
      rw [hk]
      exact (hre p hp).2 x hx
    · intro u hu v hv
      rw [hk] at hu hv
      show v ∈ dictGetD (g.add_node n).edges u [] ↔ u ∈ dictGetD (g.add_node n).reverse v []
      rw [he, hr]
      exact hcons u hu v hv
  · -- fresh id: every key list gains the id, the new adjacency entries are empty
    have hke : n.node_id ∉ dictKeys g.edges := by rw [hek]; exact hmem
    have hkr : n.node_id ∉ dictKeys g.reverse := by rw [hrk]; exact hmem
    have he : (g.add_node n).edges = g.edges ++ [(n.node_id, [])] :=
      dictSetdefault_of_not_mem _ _ _ hke
    have hr : (g.add_node n).reverse = g.reverse ++ [(n.node_id, [])] :=
      dictSetdefault_of_not_mem _ _ _ hkr
    have hk : dictKeys (g.add_node n).nodes = dictKeys g.nodes ++ [n.node_id] :=
      dictKeys_set_of_not_mem _ _ _ hmem
    have hkl : ∀ x, x ∈ dictKeys (g.add_node n).nodes
        ↔ x ∈ dictKeys g.nodes ∨ x = n.node_id := by
      intro x
      rw [hk]
      simp
    refine ⟨?_, ?_, ?_, ?_, ?_, ?_⟩
    · rw [hk]
      simp only [List.nodup_append, List.nodup_cons, List.nodup_nil, and_true,
        List.disjoint_singleton]
      exact ⟨hnd, by simpa using hmem⟩
    · show dictKeys (g.add_node n).edges = dictKeys (g.add_node n).nodes
      rw [he, hk]
      simp only [dictKeys, List.map_append]
      rw [show List.map Prod.fst g.edges = dictKeys g.nodes from hek]
      rfl
    · show dictKeys (g.add_node n).reverse = dictKeys (g.add_node n).nodes
      rw [hr, hk]
      simp only [dictKeys, List.map_append]
      rw [show List.map Prod.fst g.reverse = dictKeys g.nodes from hrk]
      rfl
    · rw [he]
      intro p hp
      rcases List.mem_append.1 hp with h | h
      · refine ⟨(hee p h).1, fun x hx => ?_⟩
        rw [hkl]
        exact Or.inl ((hee p h).2 x hx)
      · simp only [List.mem_singleton] at h
        subst h
        exact ⟨List.nodup_nil, by simp⟩
    · rw [hr]
      intro p hp
      rcases List.mem_append.1 hp with h | h
      · refine ⟨(hre p h).1, fun x hx => ?_⟩
        rw [hkl]
        exact Or.inl ((hre p h).2 x hx)
      · simp only [List.mem_singleton] at h
        subst h
        exact ⟨List.nodup_nil, by simp⟩
    · intro u hu v hv
      show v ∈ dictGetD (g.add_node n).edges u [] ↔ u ∈ dictGetD (g.add_node n).reverse v []
      rw [hkl] at hu hv
      have hsucc_old : ∀ w, w ∈ dictKeys g.nodes →
          dictGetD (g.add_node n).edges w [] = g.succs w := by
        intro w hw
        have hwne : w ≠ n.node_id := fun hc => hmem (hc ▸ hw)
        exact dictGetD_setdefault_ne _ _ _ hwne
      have hpred_old : ∀ w, w ∈ dictKeys g.nodes →
          dictGetD (g.add_node n).reverse w [] = g.predecessors w := by
        intro w hw
        have hwne : w ≠ n.node_id := fun hc => hmem (hc ▸ hw)
        exact dictGetD_setdefault_ne _ _ _ hwne
      have hsucc_new : dictGetD (g.add_node n).edges n.node_id [] = [] := by
        show dictGetD (dictSetdefault g.edges n.node_id []) n.node_id [] = []
        rw [dictGetD_setdefault_self, dictGet_eq_none_of_not_mem hke]
        rfl
      have hpred_new : dictGetD (g.add_node n).reverse n.node_id [] = [] := by
        show dictGetD (dictSetdefault g.reverse n.node_id []) n.node_id [] = []
        rw [dictGetD_setdefault_self, dictGet_eq_none_of_not_mem hkr]
        rfl
      rcases hu with hu | hu
      · rcases hv with hv | hv
        · rw [hsucc_old u hu, hpred_old v hv]
          exact hcons u hu v hv
        · subst hv
          rw [hsucc_old u hu, hpred_new]
          constructor
          · intro hc
            exact absurd (g.succs_mem_ids ⟨hnd, hek, hrk, hee, hre, hcons⟩ hc) hmem
          · intro hc
            exact absurd hc (by simp)
      · subst hu
        rw [hsucc_new]
        rcases hv with hv | hv
        · rw [hpred_old v hv]
          constructor
          · intro hc
            exact absurd hc (by simp)
          · intro hc
            exact absurd (g.preds_mem_ids ⟨hnd, hek, hrk, hee, hre, hcons⟩ hc) hmem
        · subst hv
          rw [hpred_new]

theorem setAdd_mem (l : List String) (x y : String) : y ∈ setAdd l x ↔ y ∈ l ∨ y = x := by
  unfold setAdd
  by_cases h : x ∈ l
  · rw [if_pos h]
    constructor
    · exact Or.inl
    · rintro (hy | hy)
      · exact hy
      · exact hy ▸ h
  · rw [if_neg h]
    simp

theorem setAdd_nodup {l : List String} (h : l.Nodup) (x : String) : (setAdd l x).Nodup := by
  unfold setAdd
  by_cases hx : x ∈ l
  · rw [if_pos hx]
    exact h
  · rw [if_neg hx]
    simp [List.nodup_append, h, hx]

theorem adjInsert_keys (d : List (String × List String)) (k x : String) :
    dictKeys (adjInsert d k x) = dictKeys d := by
  induction d with
  | nil => rfl
  | cons p rest ih =>
    obtain ⟨k₀, s₀⟩ := p
    by_cases h₀ : k₀ = k <;> simp [adjInsert, h₀, dictKeys] at ih ⊢ <;> exact ih

theorem adjInsert_getD_self {d : List (String × List String)} {k : String} (x : String)
    (hk : k ∈ dictKeys d) :
    dictGetD (adjInsert d k x) k [] = setAdd (dictGetD d k []) x := by
  induction d with
  | nil => simp [dictKeys] at hk
  | cons p rest ih =>
    obtain ⟨k₀, s₀⟩ := p
    by_cases h₀ : k₀ = k
    · subst h₀
      simp [adjInsert, dictGetD, dictGet]
    · have hk' : k ∈ dictKeys rest := by
        simp only [dictKeys, List.map_cons, List.mem_cons] at hk
        rcases hk with h | h
        · exact absurd h.symm h₀
        · exact h
      simp only [adjInsert, h₀, if_false, dictGetD, dictGet] at ih ⊢
      exact ih hk'

theorem adjInsert_getD_ne (d : List (String × List String)) {k k' : String} (x : String)
    (h : k' ≠ k) : dictGetD (adjInsert d k x) k' [] = dictGetD d k' [] := by
  induction d with
  | nil => rfl
  | cons p rest ih =>
    obtain ⟨k₀, s₀⟩ := p
    by_cases h₀ : k₀ = k
    · subst h₀
      have : ¬k₀ = k' := fun hc => h hc.symm
      simp [adjInsert, dictGetD, dictGet, this]
    · simp only [adjInsert, h₀, if_false, dictGetD, dictGet] at ih ⊢
      by_cases h₁ : k₀ = k'
      · simp [h₁]
      · simp only [h₁, if_false]
        exact ih

theorem adjInsert_entries {d : List (String × List String)} {k x : String} :
    ∀ p ∈ adjInsert d k x, ∃ q ∈ d, p.1 = q.1 ∧ (p.2 = q.2 ∨ p.2 = setAdd q.2 x) := by
  induction d with
  | nil => intro p hp; exact absurd hp (by simp [adjInsert])
  | cons q₀ rest ih =>
    obtain ⟨k₀, s₀⟩ := q₀
    intro p hp
    by_cases h₀ : k₀ = k
    · subst h₀
      simp only [adjInsert, if_pos rfl] at hp
      rcases List.mem_cons.1 hp with h | h
      · exact ⟨(k₀, s₀), List.mem_cons_self _ _, by rw [h], Or.inr (by rw [h])⟩
      · exact ⟨p, List.mem_cons_of_mem _ h, rfl, Or.inl rfl⟩
    · simp only [adjInsert, h₀, if_false] at hp
      rcases List.mem_cons.1 hp with h | h
      · exact ⟨(k₀, s₀), List.mem_cons_self _ _, by rw [h], Or.inl (by rw [h])⟩
      · obtain ⟨q, hq, h1, h2⟩ := ih p h
        exact ⟨q, List.mem_cons_of_mem _ hq, h1, h2⟩

/-- `add_edge` preserves well-formedness. -/
theorem Graph.WF.add_edge {g : Graph} (hwf : g.WF) {s t : String} {g' : Graph}
    (h : g.add_edge s t = .ok g') : g'.WF := by
  obtain ⟨hnd, hek, hrk, hee, hre, hcons⟩ := hwf
  unfold Graph.add_edge at h
  by_cases hs : s ∈ dictKeys g.nodes
  · rw [if_neg (not_not_intro hs)] at h
    by_cases ht : t ∈ dictKeys g.nodes
    · rw [if_neg (not_not_intro ht)] at h
      have hg' : g' = { g with edges := adjInsert g.edges s t
                               reverse := adjInsert g.reverse t s } := by
        injection h with h2
        exact h2.symm
      subst hg'
      have hks : s ∈ dictKeys g.edges := by rw [hek]; exact hs
      have hkt : t ∈ dictKeys g.reverse := by rw [hrk]; exact ht
      refine ⟨hnd, ?_, ?_, ?_, ?_, ?_⟩
      · show dictKeys (adjInsert g.edges s t) = dictKeys g.nodes
        rw [adjInsert_keys]
        exact hek
      · show dictKeys (adjInsert g.reverse t s) = dictKeys g.nodes
        rw [adjInsert_keys]
        exact hrk
      · intro p hp
        obtain ⟨q, hq, -, h2⟩ := adjInsert_entries p hp
        rcases h2 with h2 | h2
        · rw [h2]
          exact hee q hq
        · rw [h2]
          refine ⟨setAdd_nodup (hee q hq).1 t, ?_⟩
          intro y hy
          rcases (setAdd_mem q.2 t y).1 hy with hy | hy
          · exact (hee q hq).2 y hy
          · exact hy ▸ ht
      · intro p hp
        obtain ⟨q, hq, -, h2⟩ := adjInsert_entries p hp
        rcases h2 with h2 | h2
        · rw [h2]
          exact hre q hq
        · rw [h2]
          refine ⟨setAdd_nodup (hre q hq).1 s, ?_⟩
          intro y hy
          rcases (setAdd_mem q.2 s y).1 hy with hy | hy
          · exact (hre q hq).2 y hy
          · exact hy ▸ hs
      · intro u hu v hv
        show v ∈ dictGetD (adjInsert g.edges s t) u []
          ↔ u ∈ dictGetD (adjInsert g.reverse t s) v []
        by_cases hus : u = s
        · subst hus
          rw [show dictGetD (adjInsert g.edges u t) u [] = setAdd (g.succs u) t from
            adjInsert_getD_self t hks]
          by_cases hvt : v = t
          · subst hvt
            rw [show dictGetD (adjInsert g.reverse v u) v [] = setAdd (g.predecessors v) u
              from adjInsert_getD_self u hkt]
            rw [setAdd_mem, setAdd_mem]
            simp
          · rw [show dictGetD (adjInsert g.reverse t u) v [] = g.predecessors v from
              adjInsert_getD_ne _ _ hvt]
            rw [setAdd_mem]
            constructor
            · rintro (hy | hy)
              · exact (hcons u hu v hv).1 hy
              · exact absurd hy hvt
            · intro hy
              exact Or.inl ((hcons u hu v hv).2 hy)
        · rw [show dictGetD (adjInsert g.edges s t) u [] = g.succs u from
            adjInsert_getD_ne _ _ hus]
          by_cases hvt : v = t
          · subst hvt
            rw [show dictGetD (adjInsert g.reverse v s) v [] = setAdd (g.predecessors v) s
              from adjInsert_getD_self s hkt]
            rw [setAdd_mem]
            constructor
            · intro hy
              exact Or.inl ((hcons u hu v hv).1 hy)
            · rintro (hy | hy)
              · exact (hcons u hu v hv).2 hy
              · exact absurd hy hus
          · rw [show dictGetD (adjInsert g.reverse t s) v [] = g.predecessors v from
              adjInsert_getD_ne _ _ hvt]
            exact hcons u hu v hv
    · rw [if_pos ht] at h
      exact Except.noConfusion h
  · rw [if_pos hs] at h
    exact Except.noConfusion h

end Planrun
